import Mathlib

/-!
Verification of the JSON tokenize/parse/generate pipeline
(`src/json_util.rs`, `src/tokenizer.rs`, `src/parser.rs`, `src/generator.rs`,
`src/main.rs`).

The tokenizer state (a `VecDeque<char>`) is modelled as a `List Char`; every
tokenizer function takes the remaining input and returns its result together
with the remaining input afterwards.  A Rust panic (from `expect`) is a
distinguished outcome `TokOut.aborted`.  Machine integers parsed by
`read_digits` are modelled as `Int` with the explicit `i64::MAX` bound at
which `str::parse::<i64>` starts failing.

Note on the snapshot: `tokenizer.rs` declares `Token::Int(i64)` and parses
digits into a machine integer, while `parser.rs` (and its tests) match on a
`Token::Number(String)` variant that `tokenizer.rs` does not declare, so the
two files do not type-check together.  The `Token` type below carries both
variants; `next_token` is the faithful embedding of `tokenizer.rs` (producing
`int`), and `next_token_p` is the same scanner with the number branch
modelled from the spec (producing `number` with the verbatim text), which is
what `parser.rs`, `generator.rs` and their tests assume.
-/

/-! ## json_util.rs -/

def is_whitespace (c : Char) : Bool :=
  c == '\x20' || c == '\x09' || c == '\x0A' || c == '\x0D'

def is_unescaped (c : Char) : Bool :=
  (decide (0x20 ≤ c.toNat) && decide (c.toNat ≤ 0x21))
  || (decide (0x23 ≤ c.toNat) && decide (c.toNat ≤ 0x5B))
  || decide (0x5D ≤ c.toNat)

def is_escape_target (c : Char) : Bool :=
  c == '\x22' || c == '\x5C' || c == '\x2F' || c == '\x62'
  || c == '\x66' || c == '\x6E' || c == '\x72' || c == '\x74'

def escape (c : Char) : Option Char :=
  if c == '\x22' then some '\x22'
  else if c == '\x5C' then some '\x5C'
  else if c == '\x2F' then some '\x2F'
  else if c == '\x62' then some '\x08'
  else if c == '\x66' then some '\x0C'
  else if c == '\x6E' then some '\x0A'
  else if c == '\x72' then some '\x0D'
  else if c == '\x74' then some '\x09'
  else none

/-! ## tokenizer.rs : the Token type -/

inductive Token where
  | null
  | int (n : Int)
  | number (s : String)
  | string (s : String)
  | boolean (b : Bool)
  | colon
  | comma
  | leftSquareBrancket
  | rightSquareBrancket
  | leftCurlyBranckt
  | rightCurlyBranckt
  | eof
deriving DecidableEq

/-- Outcome of one tokenizer call: `Ok(token)`, `Err(message)`, or a Rust
panic (`expect` failing), which aborts the process. -/
inductive TokOut where
  | ok (t : Token)
  | err (e : String)
  | aborted (e : String)
deriving DecidableEq

/-! ## tokenizer.rs : scanning -/

def skip_whitespaces : List Char → List Char
  | c :: cs => if is_whitespace c then skip_whitespaces cs else c :: cs
  | [] => []

/-- `Tokenizer::read_digits`, digit-collection part: pops digits off the
front, pushing them on `acc`. -/
def read_digits_go : List Char → String → String × List Char
  | c :: cs, acc => if c.isDigit then read_digits_go cs (acc.push c) else (acc, c :: cs)
  | [], acc => (acc, [])

def digitsToNat (s : String) : Nat :=
  s.data.foldl (fun a c => a * 10 + (c.toNat - 48)) 0

def I64_MAX : Nat := 9223372036854775807

/-- `digits.parse::<i64>()` as used by `read_digits`: the string consists of
the collected ASCII digits only, so parsing fails exactly when it is empty or
its value exceeds `i64::MAX`. -/
def parse_i64 (s : String) : Option Int :=
  if s.data.isEmpty then none
  else if digitsToNat s ≤ I64_MAX then some (digitsToNat s) else none

/-- `Tokenizer::tokenize_number` as written in `tokenizer.rs`: parses the
digits into an `i64` (`Token::Int`), panicking via `expect` when `parse`
fails ("digits must represent number."). -/
def tokenize_number (s : List Char) : TokOut × List Char :=
  match s with
  | c :: rest =>
    if c == '-' then
      let p := read_digits_go rest ""
      (match parse_i64 p.1 with
       | some num => (TokOut.ok (.int (-num)), p.2)
       | none => (TokOut.aborted "digits must represent number.", p.2))
    else
      let p := read_digits_go (c :: rest) ""
      (match parse_i64 p.1 with
       | some num => (TokOut.ok (.int num), p.2)
       | none => (TokOut.aborted "digits must represent number.", p.2))
  | [] =>
    let p := read_digits_go [] ""
    (match parse_i64 p.1 with
     | some num => (TokOut.ok (.int num), p.2)
     | none => (TokOut.aborted "digits must represent number.", p.2))

/-- `Tokenizer::pop_escape`. -/
def pop_escape : List Char → Option Char × List Char
  | c :: cs => if is_escape_target c then (escape c, cs) else (none, c :: cs)
  | [] => (none, [])

/-- The loop of `Tokenizer::tokenize_string`.  In the `\` arm the source
calls `pop_escape` without having popped the backslash, so `pop_escape` sees
the backslash itself (an escape target), pops it, and `escape` maps it back
to a backslash. -/
def scan_string_loop : List Char → String → Except String String × List Char
  | c :: cs, ident =>
    if c == '\x5C' then
      match escape c with
      | some e => scan_string_loop cs (ident.push e)
      | none => (.error "The next of \\ must be a escaped character", c :: cs)
    else if c == '"' then (.ok ident, cs)
    else if is_unescaped c then scan_string_loop cs (ident.push c)
    else (.error "The tokenizer found a unexpected character while tokenizing string.", c :: cs)
  | [], _ =>
    (.error "The tokenizer reached EOF before finding \" which represents the end of a string", [])

def Tokenizer.consume (c : Char) : List Char → Except String Char × List Char
  | top :: rest =>
    if top == c then (.ok top, rest)
    else (.error ("The tokenizer expected " ++ c.toString ++ ", but found " ++ top.toString ++ "."), rest)
  | [] => (.error ("The tokenizer expected " ++ c.toString ++ ", but reached EOF."), [])

/-- A chain of `Tokenizer::consume` calls, one per expected character (used
for the bodies of `tokenize_true` / `tokenize_false` / `tokenize_null`). -/
def consumeAll : List Char → List Char → Except String Unit × List Char
  | [], s => (.ok (), s)
  | c :: cs, s =>
    match Tokenizer.consume c s with
    | (.ok _, s') => consumeAll cs s'
    | (.error e, s') => (.error e, s')

def tokenize_string (s : List Char) : Except String Token × List Char :=
  match Tokenizer.consume '"' s with
  | (.error e, s') => (.error e, s')
  | (.ok _, s') =>
    match scan_string_loop s' "" with
    | (.ok ident, s'') => (.ok (.string ident), s'')
    | (.error e, s'') => (.error e, s'')

def tokenize_true (s : List Char) : Except String Token × List Char :=
  match consumeAll ['t', 'r', 'u', 'e'] s with
  | (.ok _, s') => (.ok (.boolean true), s')
  | (.error e, s') => (.error e, s')

def tokenize_false (s : List Char) : Except String Token × List Char :=
  match consumeAll ['f', 'a', 'l', 's', 'e'] s with
  | (.ok _, s') => (.ok (.boolean false), s')
  | (.error e, s') => (.error e, s')

def tokenize_null (s : List Char) : Except String Token × List Char :=
  match consumeAll ['n', 'u', 'l', 'l'] s with
  | (.ok _, s') => (.ok Token.null, s')
  | (.error e, s') => (.error e, s')

/-- An ASCII apostrophe, used in the unexpected-character message. -/
def squot : String := (Char.ofNat 39).toString

/-- `Tokenizer::next_token` as written in `tokenizer.rs` (numbers become
`Token::Int`).  The error arm does not consume the offending character. -/
def next_token (s0 : List Char) : TokOut × List Char :=
  let s := skip_whitespaces s0
  match s with
  | [] => (.ok .eof, [])
  | c :: cs =>
    if c.isDigit then tokenize_number s
    else if c == '-' then tokenize_number s
    else if c == '\x7b' then (.ok .leftCurlyBranckt, cs)
    else if c == '\x7d' then (.ok .rightCurlyBranckt, cs)
    else if c == '[' then (.ok .leftSquareBrancket, cs)
    else if c == ']' then (.ok .rightSquareBrancket, cs)
    else if c == ':' then (.ok .colon, cs)
    else if c == ',' then (.ok .comma, cs)
    else if c == '"' then
      match tokenize_string s with
      | (.ok t, s') => (.ok t, s')
      | (.error e, s') => (.err e, s')
    else if c == 't' then
      match tokenize_true s with
      | (.ok t, s') => (.ok t, s')
      | (.error e, s') => (.err e, s')
    else if c == 'f' then
      match tokenize_false s with
      | (.ok t, s') => (.ok t, s')
      | (.error e, s') => (.err e, s')
    else if c == 'n' then
      match tokenize_null s with
      | (.ok t, s') => (.ok t, s')
      | (.error e, s') => (.err e, s')
    else (.err ("The tokenizer found an unexpected character " ++ squot ++ c.toString ++ squot ++ "."), s)

/-- `<Tokenizer as Iterator>::next`: `Ok(Eof)` becomes `None`, anything else
is an item. -/
def tokenizerNext (s : List Char) : Option TokOut × List Char :=
  match next_token s with
  | (.ok .eof, s') => (none, s')
  | (r, s') => (some r, s')

/-- The item produced by the `n`-th call (0-based) of the iterator `next`. -/
def iterNth : List Char → Nat → Option TokOut
  | s, 0 => (tokenizerNext s).1
  | s, n + 1 => iterNth (tokenizerNext s).2 n

/-! ## The pipeline tokenizer

`parser.rs` and `generator.rs` (and their tests) require a
`Token::Number(String)` variant holding the literal text, which the stale
`tokenizer.rs` in the snapshot does not produce. -/

/-- Modelled from the spec: the number scanner assumed by `parser.rs`,
`generator.rs` and the spec, missing from the snapshot's `tokenizer.rs`
(which still parses into `Token::Int(i64)`).  Spec: "ASCII digit or `-` →
numeric literal: optional leading `-`, then one or more ASCII digits,
captured verbatim as `Number(text)`"; a `-` not followed by a digit is a
LexError ("malformed character stream"). -/
def tokenize_number_p (s : List Char) : Except String Token × List Char :=
  match s with
  | c :: rest =>
    if c == '-' then
      let p := read_digits_go rest ""
      if p.1.data.isEmpty then (.error "The tokenizer expected a digit after -.", p.2)
      else (.ok (.number ("-" ++ p.1)), p.2)
    else
      let p := read_digits_go (c :: rest) ""
      if p.1.data.isEmpty then (.error "The tokenizer expected a digit.", p.2)
      else (.ok (.number p.1), p.2)
  | [] => (.error "The tokenizer expected a digit.", [])

/-- `Tokenizer::next_token` with the spec-modelled number branch
(`tokenize_number_p`); every other arm is the same as `next_token`. -/
def next_token_p (s0 : List Char) : Except String Token × List Char :=
  let s := skip_whitespaces s0
  match s with
  | [] => (.ok .eof, [])
  | c :: cs =>
    if c.isDigit then tokenize_number_p s
    else if c == '-' then tokenize_number_p s
    else if c == '\x7b' then (.ok .leftCurlyBranckt, cs)
    else if c == '\x7d' then (.ok .rightCurlyBranckt, cs)
    else if c == '[' then (.ok .leftSquareBrancket, cs)
    else if c == ']' then (.ok .rightSquareBrancket, cs)
    else if c == ':' then (.ok .colon, cs)
    else if c == ',' then (.ok .comma, cs)
    else if c == '"' then tokenize_string s
    else if c == 't' then tokenize_true s
    else if c == 'f' then tokenize_false s
    else if c == 'n' then tokenize_null s
    else (.error ("The tokenizer found an unexpected character " ++ squot ++ c.toString ++ squot ++ "."), s)

/-- `tokenizer.collect::<Result<VecDeque<Token>, _>>()` in `pretty_json`:
drain the iterator, short-circuiting at the first `Err`.  The fuel is only a
termination device; `length + 1` calls always suffice (each successful
non-`Eof` token consumes at least one character). -/
def collectTokensGo : Nat → List Char → Except String (List Token)
  | 0, _ => .error "tokenizer fuel exhausted"
  | f + 1, s =>
    match next_token_p s with
    | (.error e, _) => .error e
    | (.ok t, s') =>
      if t = .eof then .ok []
      else
        match collectTokensGo f s' with
        | .ok ts => .ok (t :: ts)
        | .error e => .error e

def collectTokens (s : List Char) : Except String (List Token) :=
  collectTokensGo (s.length + 1) s

/-! ## parser.rs -/

inductive Node where
  | null
  | object (kvm : List (String × Node))
  | array (arr : List Node)
  | boolean (b : Bool)
  | number (s : String)
  | string (s : String)

/-- `IndexMap::insert`: an existing key keeps its position and gets the new
value; a new key is appended at the end. -/
def insertIM (kvm : List (String × Node)) (k : String) (v : Node) : List (String × Node) :=
  if (kvm.map Prod.fst).contains k then
    kvm.map (fun kv => if kv.1 = k then (k, v) else kv)
  else kvm ++ [(k, v)]

/-- Rust `{:#?}` pretty-`Debug` rendering of a `Token`, as interpolated into
the parser's error messages. -/
def tokenDebug : Token → String
  | .null => "Null"
  | .int n => "Int(\n    " ++ toString n ++ ",\n)"
  | .number s => "Number(\n    \"" ++ s ++ "\",\n)"
  | .string s => "String(\n    \"" ++ s ++ "\",\n)"
  | .boolean b => "Boolean(\n    " ++ (if b then "true" else "false") ++ ",\n)"
  | .colon => "Colon"
  | .comma => "Comma"
  | .leftSquareBrancket => "LeftSquareBrancket"
  | .rightSquareBrancket => "RightSquareBrancket"
  | .leftCurlyBranckt => "LeftCurlyBranckt"
  | .rightCurlyBranckt => "RightCurlyBranckt"
  | .eof => "Eof"

def Parser.consume (token : Token) : List Token → Except String (List Token)
  | head :: rest =>
    if head = token then .ok rest
    else .error ("Expected a token " ++ tokenDebug token ++ ", but found an unexpected token " ++ tokenDebug head)
  | [] => .error ("Expected a token " ++ tokenDebug token)

def Parser.assume (token : Token) : List Token → Bool × List Token
  | head :: rest => if head = token then (true, rest) else (false, head :: rest)
  | [] => (false, [])

def parseInt : List Token → Except String (Node × List Token)
  | .number num :: rest => .ok (.number num, rest)
  | _ => .error "Parse found an unexpected token while parsing int."

def parseBoolean : List Token → Except String (Node × List Token)
  | .boolean v :: rest => .ok (.boolean v, rest)
  | _ => .error "Parse found an unexpected token while parsing boolean."

def parseNull : List Token → Except String (Node × List Token)
  | .null :: rest => .ok (.null, rest)
  | _ => .error "Parse found an unexpected token while parsing null."

def parseString : List Token → Except String (Node × List Token)
  | .string value :: rest => .ok (.string value, rest)
  | _ => .error "Parse found an unexpected token while parsing string."

/- The recursive-descent parser of `parser.rs`.  The `Nat` fuel is a
termination device only: every function needs one unit per call, and
`tokens.length + 1` at the top is always enough (shown by the lemmas
below). -/
mutual
def parseValue : Nat → List Token → Except String (Node × List Token)
  | 0, _ => .error "parser ran out of fuel"
  | Nat.succ f, ts =>
    match ts with
    | .leftCurlyBranckt :: _ => parseObject f ts
    | .leftSquareBrancket :: _ => parseArray f ts
    | .number _ :: _ => parseInt ts
    | .string _ :: _ => parseString ts
    | .boolean _ :: _ => parseBoolean ts
    | .null :: _ => parseNull ts
    | token :: _ => .error ("Parse found an unexpected token " ++ tokenDebug token ++ " while parsing value.")
    | [] => .error "Parse found an unexpected token while parsing value."

def parseObject : Nat → List Token → Except String (Node × List Token)
  | 0, _ => .error "parser ran out of fuel"
  | Nat.succ f, ts =>
    match Parser.consume .leftCurlyBranckt ts with
    | .error e => .error e
    | .ok ts1 =>
      match Parser.assume .rightCurlyBranckt ts1 with
      | (true, ts2) => .ok (.object [], ts2)
      | (false, _) =>
        match parseMember f ts1 with
        | .error e => .error e
        | .ok (kv, ts2) => parseObjectLoop f (insertIM [] kv.1 kv.2) ts2

def parseObjectLoop : Nat → List (String × Node) → List Token → Except String (Node × List Token)
  | 0, _, _ => .error "parser ran out of fuel"
  | Nat.succ f, kvm, ts =>
    match Parser.assume .rightCurlyBranckt ts with
    | (true, ts') => .ok (.object kvm, ts')
    | (false, _) =>
      match Parser.consume .comma ts with
      | .error e => .error e
      | .ok ts1 =>
        match parseMember f ts1 with
        | .error e => .error e
        | .ok (kv, ts2) => parseObjectLoop f (insertIM kvm kv.1 kv.2) ts2

def parseMember : Nat → List Token → Except String ((String × Node) × List Token)
  | 0, _ => .error "parser ran out of fuel"
  | Nat.succ f, ts =>
    match parseString ts with
    | .error e => .error e
    | .ok (.string key, ts1) =>
      match Parser.consume .colon ts1 with
      | .error e => .error e
      | .ok ts2 =>
        match parseValue f ts2 with
        | .error e => .error e
        | .ok (value, ts3) => .ok ((key, value), ts3)
    | .ok _ => .error "unreachable: Parser::string only produces Node::String"

def parseArray : Nat → List Token → Except String (Node × List Token)
  | 0, _ => .error "parser ran out of fuel"
  | Nat.succ f, ts =>
    match Parser.consume .leftSquareBrancket ts with
    | .error e => .error e
    | .ok ts1 =>
      match Parser.assume .rightSquareBrancket ts1 with
      | (true, ts2) => .ok (.array [], ts2)
      | (false, _) =>
        match parseValue f ts1 with
        | .error e => .error e
        | .ok (v, ts2) => parseArrayLoop f [v] ts2

def parseArrayLoop : Nat → List Node → List Token → Except String (Node × List Token)
  | 0, _, _ => .error "parser ran out of fuel"
  | Nat.succ f, values, ts =>
    match Parser.assume .rightSquareBrancket ts with
    | (true, ts') => .ok (.array values, ts')
    | (false, _) =>
      match Parser.consume .comma ts with
      | .error e => .error e
      | .ok ts1 =>
        match parseValue f ts1 with
        | .error e => .error e
        | .ok (v, ts2) => parseArrayLoop f (values ++ [v]) ts2
end

/-- `Parser::parse` (= `json_text` = `value`): produces the first complete
value and ignores whatever tokens follow it. -/
def Parser.parse (tokens : List Token) : Except String Node :=
  match parseValue (tokens.length + 1) tokens with
  | .ok (node, _) => .ok node
  | .error e => .error e

/-! ## generator.rs -/

/-- Rust `String::pop`: remove the last character. -/
def string_pop (s : String) : String := String.mk s.data.dropLast

/-- `" ".repeat(indent_size)`. -/
def spaces (n : Nat) : String := String.mk (List.replicate n ' ')

/-- `Generator::inc_indent`. -/
def inc_indent (value : String) (indent_size : Nat) : String :=
  spaces indent_size ++ value

/-- `Generator::generate_string`: the raw text in a double-quote pair, with
no re-escaping. -/
def generate_string (value : String) : String := "\"" ++ value ++ "\""

/- `Generator::generate_impl` with its member/element loops
(`generate_object_inner` / `generate_array_inner`); the loops accumulate
`<new_prefix><rendering>,\n` per entry and the two `pop` calls delete the
final `,\n`. -/
mutual
def generate_impl (isz : Nat) : Node → String → String
  | .null, _ => "null"
  | .number num, _ => num
  | .string value, _ => generate_string value
  | .boolean b, _ => if b then "true" else "false"
  | .object kvm, prefx =>
    "\x7b\n" ++ string_pop (string_pop (genMembers isz kvm (inc_indent prefx isz))) ++ "\n" ++ prefx ++ "\x7d"
  | .array arr, prefx =>
    "[\n" ++ string_pop (string_pop (genElems isz arr (inc_indent prefx isz))) ++ "\n" ++ prefx ++ "]"

def genMembers (isz : Nat) : List (String × Node) → String → String
  | [], _ => ""
  | (key, node) :: rest, np =>
    (np ++ (generate_string key ++ ": " ++ generate_impl isz node np ++ ",\n")) ++ genMembers isz rest np

def genElems (isz : Nat) : List Node → String → String
  | [], _ => ""
  | node :: rest, np =>
    (np ++ generate_impl isz node np ++ ",\n") ++ genElems isz rest np
end

def generate_object_inner (isz : Nat) (kvm : List (String × Node)) (prefx : String) : String :=
  string_pop (string_pop (genMembers isz kvm (inc_indent prefx isz)))

def generate_object (isz : Nat) (kvm : List (String × Node)) (prefx : String) : String :=
  "\x7b\n" ++ generate_object_inner isz kvm prefx ++ "\n" ++ prefx ++ "\x7d"

def generate_array_inner (isz : Nat) (arr : List Node) (prefx : String) : String :=
  string_pop (string_pop (genElems isz arr (inc_indent prefx isz)))

def generate_array (isz : Nat) (arr : List Node) (prefx : String) : String :=
  "[\n" ++ generate_array_inner isz arr prefx ++ "\n" ++ prefx ++ "]"

/-- `Generator::generate`. -/
def Generator.generate (node : Node) (indent_size : Nat) : String :=
  generate_impl indent_size node ""

/-! ## main.rs -/

/-- `pretty_json` from `main.rs`: tokenize everything, parse, generate. -/
def pretty_json (json : String) (indent_size : Nat) : Except String String :=
  match collectTokens json.data with
  | .error e => .error e
  | .ok tokens =>
    match Parser.parse tokens with
    | .error e => .error e
    | .ok node => .ok (Generator.generate node indent_size)

/-! ## Specification-side descriptions of the pipeline data

`toks d` is the token sequence of a document `d`; the `wf` predicates state
when a document is faithfully representable in source text (strings made of
unescaped-range characters or backslashes, numbers of the form `-?[0-9]+`,
object key lists duplicate-free). -/

deriving instance DecidableEq for Except

mutual
def toks : Node → List Token
  | .null => [.null]
  | .boolean b => [.boolean b]
  | .number s => [.number s]
  | .string s => [.string s]
  | .object kvm => .leftCurlyBranckt :: (membersToks kvm ++ [.rightCurlyBranckt])
  | .array arr => .leftSquareBrancket :: (elemsToks arr ++ [.rightSquareBrancket])

def membersToks : List (String × Node) → List Token
  | [] => []
  | (k, v) :: rest => .string k :: .colon :: (toks v ++ membersTailToks rest)

def membersTailToks : List (String × Node) → List Token
  | [] => []
  | (k, v) :: rest => .comma :: .string k :: .colon :: (toks v ++ membersTailToks rest)

def elemsToks : List Node → List Token
  | [] => []
  | v :: rest => toks v ++ elemsTailToks rest

def elemsTailToks : List Node → List Token
  | [] => []
  | v :: rest => .comma :: (toks v ++ elemsTailToks rest)
end

/-- The characters of a string survive the scan loop and re-quote verbatim:
each is in the unescaped range, or is a backslash (which the tokenizer's
escape handling maps back to itself). -/
def validString (s : String) : Bool :=
  s.data.all (fun c => is_unescaped c || c == '\x5C')

/-- The stored text of a number literal: an optional `-`, then one or more
ASCII digits. -/
def validNumber (s : String) : Bool :=
  match s.data with
  | [] => false
  | c :: ds => if c == '-' then !ds.isEmpty && ds.all Char.isDigit else (c :: ds).all Char.isDigit

def nodupKeys : List String → Bool
  | [] => true
  | k :: ks => !(ks.contains k) && nodupKeys ks

mutual
def wfText : Node → Bool
  | .null => true
  | .boolean _ => true
  | .number s => validNumber s
  | .string s => validString s
  | .object kvm => wfTextMembers kvm
  | .array arr => wfTextList arr

def wfTextMembers : List (String × Node) → Bool
  | [] => true
  | (k, v) :: rest => validString k && wfText v && wfTextMembers rest

def wfTextList : List Node → Bool
  | [] => true
  | v :: rest => wfText v && wfTextList rest
end

mutual
def wfKeys : Node → Bool
  | .null => true
  | .boolean _ => true
  | .number _ => true
  | .string _ => true
  | .object kvm => nodupKeys (kvm.map Prod.fst) && wfKeysMembers kvm
  | .array arr => wfKeysList arr

def wfKeysMembers : List (String × Node) → Bool
  | [] => true
  | (_, v) :: rest => wfKeys v && wfKeysMembers rest

def wfKeysList : List Node → Bool
  | [] => true
  | v :: rest => wfKeys v && wfKeysList rest
end

/-- Character layout of one rendered object member (no trailing comma). -/
def memberLineChars (isz : Nat) (k : String) (v : Node) (np : String) : List Char :=
  np.data ++ '"' :: (k.data ++ '"' :: ':' :: ' ' :: (generate_impl isz v np).data)

/-- Character layout of the second-and-later rendered members, each preceded
by the separating `,\n`. -/
def membersTailChars (isz : Nat) : List (String × Node) → String → List Char
  | [], _ => []
  | (k, v) :: rest, np => ',' :: '\n' :: (memberLineChars isz k v np ++ membersTailChars isz rest np)

/-- Character layout of one rendered array element. -/
def elemLineChars (isz : Nat) (v : Node) (np : String) : List Char :=
  np.data ++ (generate_impl isz v np).data

def elemsTailChars (isz : Nat) : List Node → String → List Char
  | [], _ => []
  | v :: rest, np => ',' :: '\n' :: (elemLineChars isz v np ++ elemsTailChars isz rest np)

/-- All characters of a rendering prefix are whitespace. -/
def wsString (s : String) : Bool := s.data.all is_whitespace

def headNotDigit : List Char → Bool
  | c :: _ => !c.isDigit
  | [] => true

/-- Prepend a fixed token list to a tokenization outcome. -/
def consToks (ts : List Token) : Except String (List Token) → Except String (List Token)
  | .ok l => .ok (ts ++ l)
  | .error e => .error e

/-- First-occurrence deduplication: keep each key at the position of its
first appearance. -/
def keysDedupFirst (ks : List String) : List String :=
  ks.foldl (fun acc k => if acc.contains k then acc else acc ++ [k]) []

/-- The iterator eventually stops: some call returns `None`. -/
def iterFinite (s : List Char) : Prop := ∃ n, iterNth s n = none


/-! ## Basic lemmas -/

theorem string_mk_data (s : String) : String.mk s.data = s := rfl

theorem consToks_append (a b : List Token) (r : Except String (List Token)) :
    consToks (a ++ b) r = consToks a (consToks b r) := by
  cases r <;> simp [consToks]

theorem not_ws_of_digit {c : Char} (h : c.isDigit = true) : is_whitespace c = false := by
  have h0 : c ≠ '\x20' := by rintro rfl; exact absurd h (by decide)
  have h1 : c ≠ '\x09' := by rintro rfl; exact absurd h (by decide)
  have h2 : c ≠ '\x0A' := by rintro rfl; exact absurd h (by decide)
  have h3 : c ≠ '\x0D' := by rintro rfl; exact absurd h (by decide)
  simp [is_whitespace, h0, h1, h2, h3]

theorem skip_ws_append (ws s : List Char) (h : ws.all is_whitespace = true) :
    skip_whitespaces (ws ++ s) = skip_whitespaces s := by
  induction ws with
  | nil => rfl
  | cons c cs ih =>
    simp only [List.all_cons, Bool.and_eq_true] at h
    simp [skip_whitespaces, h.1, ih h.2]

theorem skip_ws_not {c : Char} (cs : List Char) (h : is_whitespace c = false) :
    skip_whitespaces (c :: cs) = c :: cs := by
  simp [skip_whitespaces, h]

theorem next_token_p_ws (ws s : List Char) (h : ws.all is_whitespace = true) :
    next_token_p (ws ++ s) = next_token_p s := by
  simp [next_token_p, skip_ws_append ws s h]

theorem collect_ws (f : Nat) (ws s : List Char) (h : ws.all is_whitespace = true) :
    collectTokensGo f (ws ++ s) = collectTokensGo f s := by
  cases f with
  | zero => rfl
  | succ f => simp [collectTokensGo, next_token_p_ws ws s h]

theorem collect_step {s s' : List Char} {t : Token} (f : Nat)
    (h : next_token_p s = (.ok t, s')) (ht : t ≠ .eof) :
    collectTokensGo (f + 1) s = consToks [t] (collectTokensGo f s') := by
  simp only [collectTokensGo, h, if_neg ht]
  cases collectTokensGo f s' <;> simp [consToks]

/-! ## One-token scanner steps (pipeline tokenizer) -/

theorem ntp_eof : next_token_p [] = (.ok .eof, []) := rfl

theorem ntp_lc (cs : List Char) : next_token_p ('\x7b' :: cs) = (.ok .leftCurlyBranckt, cs) := rfl

theorem ntp_rc (cs : List Char) : next_token_p ('\x7d' :: cs) = (.ok .rightCurlyBranckt, cs) := rfl

theorem ntp_ls (cs : List Char) : next_token_p ('[' :: cs) = (.ok .leftSquareBrancket, cs) := rfl

theorem ntp_rs (cs : List Char) : next_token_p (']' :: cs) = (.ok .rightSquareBrancket, cs) := rfl

theorem ntp_colon (cs : List Char) : next_token_p (':' :: cs) = (.ok .colon, cs) := rfl

theorem ntp_comma (cs : List Char) : next_token_p (',' :: cs) = (.ok .comma, cs) := rfl

theorem ntp_true (cs : List Char) :
    next_token_p ('t' :: 'r' :: 'u' :: 'e' :: cs) = (.ok (.boolean true), cs) := rfl

theorem ntp_false (cs : List Char) :
    next_token_p ('f' :: 'a' :: 'l' :: 's' :: 'e' :: cs) = (.ok (.boolean false), cs) := rfl

theorem ntp_null (cs : List Char) :
    next_token_p ('n' :: 'u' :: 'l' :: 'l' :: cs) = (.ok Token.null, cs) := rfl

theorem read_digits_go_all {ds rest : List Char} (acc : String)
    (hds : ds.all Char.isDigit = true) (hr : headNotDigit rest = true) :
    read_digits_go (ds ++ rest) acc = (String.mk (acc.data ++ ds), rest) := by
  induction ds generalizing acc with
  | nil =>
    cases rest with
    | nil => simp [read_digits_go, string_mk_data]
    | cons c cs =>
      simp only [headNotDigit, Bool.not_eq_true'] at hr
      simp [read_digits_go, hr, string_mk_data]
  | cons d ds ih =>
    simp only [List.all_cons, Bool.and_eq_true] at hds
    simp [read_digits_go, hds.1, ih _ hds.2, String.data_push, List.append_assoc]

theorem scan_ok {body : List Char} (acc : String) (rest : List Char)
    (h : body.all (fun c => is_unescaped c || c == '\x5C') = true) :
    scan_string_loop (body ++ '"' :: rest) acc = (.ok (String.mk (acc.data ++ body)), rest) := by
  induction body generalizing acc with
  | nil => simp [scan_string_loop, string_mk_data]
  | cons c body ih =>
    simp only [List.all_cons, Bool.and_eq_true] at h
    obtain ⟨hc, hbody⟩ := h
    by_cases hbs : c = '\x5C'
    · subst hbs
      simp [scan_string_loop, escape, ih _ hbody, String.data_push, List.append_assoc]
    · have hun : is_unescaped c = true := by
        rcases (Bool.or_eq_true _ _).mp hc with h1 | h2
        · exact h1
        · exact absurd (by exact beq_iff_eq.mp h2) hbs
      have hq : c ≠ '"' := by rintro rfl; exact absurd hun (by decide)
      have hbs' : (c == '\x5C') = false := by simp [hbs]
      have hq' : (c == '"') = false := by simp [hq]
      simp [scan_string_loop, hbs', hq', hun, ih _ hbody, String.data_push, List.append_assoc]

theorem ntp_string {s : String} (rest : List Char) (h : validString s = true) :
    next_token_p ('"' :: (s.data ++ '"' :: rest)) = (.ok (.string s), rest) := by
  have hskip : skip_whitespaces ('"' :: (s.data ++ '"' :: rest)) = '"' :: (s.data ++ '"' :: rest) :=
    skip_ws_not _ (by decide)
  simp [next_token_p, hskip, tokenize_string, Tokenizer.consume, scan_ok "" rest h,
    string_mk_data]

theorem not_minus_of_digit {c : Char} (h : c.isDigit = true) : (c == '-') = false := by
  have : c ≠ '-' := by rintro rfl; exact absurd h (by decide)
  simp [this]

theorem ntp_number {s : String} (rest : List Char) (hs : validNumber s = true)
    (hr : headNotDigit rest = true) :
    next_token_p (s.data ++ rest) = (.ok (.number s), rest) := by
  cases hd : s.data with
  | nil => rw [validNumber, hd] at hs; exact absurd hs (by decide)
  | cons c ds =>
    simp only [validNumber, hd] at hs
    by_cases hc : c = '-'
    · subst hc
      rw [if_pos (show (('-' : Char) == '-') = true by decide)] at hs
      simp only [Bool.and_eq_true, Bool.not_eq_true'] at hs
      obtain ⟨hne, hall⟩ := hs
      have hskip : skip_whitespaces ('-' :: (ds ++ rest)) = '-' :: (ds ++ rest) :=
        skip_ws_not _ (by decide)
      have h1 : ('-' : Char).isDigit = false := by decide
      have h2 : (('-' : Char) == '-') = true := by decide
      simp only [List.cons_append]
      rw [next_token_p]
      simp only [hskip, h1, h2, Bool.false_eq_true, if_false, if_true]
      rw [tokenize_number_p]
      simp only [h2, if_true, read_digits_go_all "" hall hr]
      cases ds with
      | nil => exact absurd hne (by simp)
      | cons d ds' =>
        have hmk : ("-" ++ String.mk (d :: ds')) = s := by
          apply String.ext
          rw [String.data_append, hd]
          rfl
        simp [hmk]
    · have hce : (c == '-') = false := by simp [hc]
      rw [if_neg (by simp [hc])] at hs
      have hcd : c.isDigit = true := by
        simp only [List.all_cons, Bool.and_eq_true] at hs
        exact hs.1
      have hskip : skip_whitespaces (c :: (ds ++ rest)) = c :: (ds ++ rest) :=
        skip_ws_not _ (not_ws_of_digit hcd)
      simp only [List.cons_append]
      rw [next_token_p]
      simp only [hskip, hcd, if_true]
      rw [tokenize_number_p]
      simp only [hce, Bool.false_eq_true, if_false]
      rw [show c :: (ds ++ rest) = (c :: ds) ++ rest from rfl, read_digits_go_all "" hs hr]
      have hmk : String.mk (c :: ds) = s := by
        apply String.ext
        rw [hd]
      simp [hmk]

/-! ## Shape of the generated text -/

theorem dropLast_concat2 {α : Type} (l : List α) (a b : α) :
    (l ++ [a, b]).dropLast.dropLast = l := by
  have h : l ++ [a, b] = (l ++ [a]) ++ [b] := by simp
  rw [h, List.dropLast_concat, List.dropLast_concat]

theorem gi_null_data (isz : Nat) (prefx : String) :
    (generate_impl isz .null prefx).data = ['n', 'u', 'l', 'l'] := rfl

theorem gi_true_data (isz : Nat) (prefx : String) :
    (generate_impl isz (.boolean true) prefx).data = ['t', 'r', 'u', 'e'] := rfl

theorem gi_false_data (isz : Nat) (prefx : String) :
    (generate_impl isz (.boolean false) prefx).data = ['f', 'a', 'l', 's', 'e'] := rfl

theorem gi_number_data (isz : Nat) (s : String) (prefx : String) :
    (generate_impl isz (.number s) prefx).data = s.data := rfl

theorem gi_string_data (isz : Nat) (s : String) (prefx : String) :
    (generate_impl isz (.string s) prefx).data = '"' :: (s.data ++ '"' :: []) := by
  simp [generate_impl, generate_string, String.data_append]

theorem genMembersTail_data (isz : Nat) (ms : List (String × Node)) (np : String) :
    ',' :: '\n' :: (genMembers isz ms np).data = membersTailChars isz ms np ++ [',', '\n'] := by
  induction ms with
  | nil => simp [genMembers, membersTailChars]
  | cons m ms ih =>
    obtain ⟨k, v⟩ := m
    simp only [genMembers, membersTailChars, String.data_append]
    conv_rhs => rw [List.cons_append, List.cons_append, List.append_assoc, ← ih]
    simp [memberLineChars, generate_string, String.data_append]

theorem genMembers_data (isz : Nat) (k : String) (v : Node) (ms : List (String × Node))
    (np : String) :
    (genMembers isz ((k, v) :: ms) np).data
      = (memberLineChars isz k v np ++ membersTailChars isz ms np) ++ [',', '\n'] := by
  rw [List.append_assoc, ← genMembersTail_data]
  simp [genMembers, memberLineChars, generate_string, String.data_append]

theorem genElemsTail_data (isz : Nat) (vs : List Node) (np : String) :
    ',' :: '\n' :: (genElems isz vs np).data = elemsTailChars isz vs np ++ [',', '\n'] := by
  induction vs with
  | nil => simp [genElems, elemsTailChars]
  | cons v vs ih =>
    simp only [genElems, elemsTailChars, String.data_append]
    conv_rhs => rw [List.cons_append, List.cons_append, List.append_assoc, ← ih]
    simp [elemLineChars, String.data_append]

theorem genElems_data (isz : Nat) (v : Node) (vs : List Node) (np : String) :
    (genElems isz (v :: vs) np).data
      = (elemLineChars isz v np ++ elemsTailChars isz vs np) ++ [',', '\n'] := by
  rw [List.append_assoc, ← genElemsTail_data]
  simp [genElems, elemLineChars, String.data_append]

theorem gi_object_data (isz : Nat) (k : String) (v : Node) (ms : List (String × Node))
    (prefx : String) :
    (generate_impl isz (.object ((k, v) :: ms)) prefx).data
      = '\x7b' :: '\n' ::
        ((memberLineChars isz k v (inc_indent prefx isz)
            ++ membersTailChars isz ms (inc_indent prefx isz))
          ++ '\n' :: (prefx.data ++ ['\x7d'])) := by
  show ("\x7b\n" ++ string_pop (string_pop (genMembers isz ((k, v) :: ms) (inc_indent prefx isz)))
      ++ "\n" ++ prefx ++ "\x7d").data = _
  simp [String.data_append, string_pop, genMembers_data, dropLast_concat2]

theorem gi_object_nil_data (isz : Nat) (prefx : String) :
    (generate_impl isz (.object []) prefx).data
      = '\x7b' :: '\n' :: '\n' :: (prefx.data ++ ['\x7d']) := by
  show ("\x7b\n" ++ string_pop (string_pop (genMembers isz [] (inc_indent prefx isz)))
      ++ "\n" ++ prefx ++ "\x7d").data = _
  simp [String.data_append, string_pop, genMembers]

theorem gi_array_data (isz : Nat) (v : Node) (vs : List Node) (prefx : String) :
    (generate_impl isz (.array (v :: vs)) prefx).data
      = '[' :: '\n' ::
        ((elemLineChars isz v (inc_indent prefx isz)
            ++ elemsTailChars isz vs (inc_indent prefx isz))
          ++ '\n' :: (prefx.data ++ [']'])) := by
  show ("[\n" ++ string_pop (string_pop (genElems isz (v :: vs) (inc_indent prefx isz)))
      ++ "\n" ++ prefx ++ "]").data = _
  simp [String.data_append, string_pop, genElems_data, dropLast_concat2]

theorem gi_array_nil_data (isz : Nat) (prefx : String) :
    (generate_impl isz (.array []) prefx).data
      = '[' :: '\n' :: '\n' :: (prefx.data ++ [']']) := by
  show ("[\n" ++ string_pop (string_pop (genElems isz [] (inc_indent prefx isz)))
      ++ "\n" ++ prefx ++ "]").data = _
  simp [String.data_append, string_pop, genElems]

/-! ## Whitespace and guard helpers -/

theorem collect_step' {s s' : List Char} {t : Token} (f : Nat)
    (h : next_token_p s = (.ok t, s')) (ht : t ≠ .eof) :
    collectTokensGo (1 + f) s = consToks [t] (collectTokensGo f s') := by
  rw [Nat.add_comm]
  exact collect_step f h ht

theorem collect_ws_cons (f : Nat) (c : Char) (ws s : List Char)
    (hc : is_whitespace c = true) (h : ws.all is_whitespace = true) :
    collectTokensGo f (c :: (ws ++ s)) = collectTokensGo f s := by
  rw [show c :: (ws ++ s) = (c :: ws) ++ s from rfl, collect_ws f _ _ (by simp [hc, h])]

theorem collect_ws_one (f : Nat) (c : Char) (s : List Char) (hc : is_whitespace c = true) :
    collectTokensGo f (c :: s) = collectTokensGo f s := by
  simpa using collect_ws_cons f c [] s hc rfl

theorem inc_indent_data (prefx : String) (isz : Nat) :
    (inc_indent prefx isz).data = List.replicate isz ' ' ++ prefx.data := by
  simp [inc_indent, spaces, String.data_append]

theorem ws_replicate (n : Nat) : (List.replicate n ' ').all is_whitespace = true := by
  simp only [List.all_eq_true]
  intro c hc
  rw [List.eq_of_mem_replicate hc]
  decide

theorem ws_inc_indent {prefx : String} (isz : Nat) (h : wsString prefx = true) :
    wsString (inc_indent prefx isz) = true := by
  simp only [wsString] at h ⊢
  rw [inc_indent_data]
  simp [List.all_append, ws_replicate, h, show is_whitespace ' ' = true from by decide]

theorem hnd_mtc (isz : Nat) (ms : List (String × Node)) (np : String) (X : List Char) :
    headNotDigit (membersTailChars isz ms np ++ '\n' :: X) = true := by
  cases ms with
  | nil => simp [membersTailChars, headNotDigit]
  | cons m ms => obtain ⟨k, v⟩ := m; simp [membersTailChars, headNotDigit]

theorem hnd_etc (isz : Nat) (vs : List Node) (np : String) (X : List Char) :
    headNotDigit (elemsTailChars isz vs np ++ '\n' :: X) = true := by
  cases vs with
  | nil => simp [elemsTailChars, headNotDigit]
  | cons v vs => simp [elemsTailChars, headNotDigit]

/-! ## Tokenizing generated text -/

theorem tokGenAux (isz : Nat) : ∀ n : Nat,
    (∀ d : Node, sizeOf d ≤ n → ∀ (prefx : String) (rest : List Char) (f : Nat),
      wfText d = true → wsString prefx = true → headNotDigit rest = true →
      collectTokensGo ((toks d).length + f) ((generate_impl isz d prefx).data ++ rest)
        = consToks (toks d) (collectTokensGo f rest))
    ∧ (∀ ms : List (String × Node), sizeOf ms ≤ n →
        ∀ (np prefx : String) (rest : List Char) (f : Nat),
      wfTextMembers ms = true → wsString np = true → wsString prefx = true →
      collectTokensGo ((membersTailToks ms).length + 1 + f)
          (membersTailChars isz ms np ++ '\n' :: (prefx.data ++ '\x7d' :: rest))
        = consToks (membersTailToks ms ++ [.rightCurlyBranckt]) (collectTokensGo f rest))
    ∧ (∀ vs : List Node, sizeOf vs ≤ n →
        ∀ (np prefx : String) (rest : List Char) (f : Nat),
      wfTextList vs = true → wsString np = true → wsString prefx = true →
      collectTokensGo ((elemsTailToks vs).length + 1 + f)
          (elemsTailChars isz vs np ++ '\n' :: (prefx.data ++ ']' :: rest))
        = consToks (elemsTailToks vs ++ [.rightSquareBrancket]) (collectTokensGo f rest)) := by
  intro n
  induction n with
  | zero =>
    refine ⟨fun d hd => absurd hd ?_, fun ms hms => absurd hms ?_, fun vs hvs => absurd hvs ?_⟩
    · have : 0 < sizeOf d := by cases d <;> simp
      omega
    · have : 0 < sizeOf ms := by cases ms <;> simp
      omega
    · have : 0 < sizeOf vs := by cases vs <;> simp
      omega
  | succ n ihn =>
    obtain ⟨ihV, ihM, ihE⟩ := ihn
    refine ⟨?_, ?_, ?_⟩
    · -- value conjunct
      intro d hsz prefx rest f hwf hws hr
      have hws' : prefx.data.all is_whitespace = true := hws
      cases d with
      | null =>
        rw [gi_null_data, show (toks Node.null).length = 1 from rfl,
          show (['n', 'u', 'l', 'l'] : List Char) ++ rest = 'n' :: 'u' :: 'l' :: 'l' :: rest from rfl,
          collect_step' f (ntp_null rest) (by decide)]
        simp [toks]
      | boolean b =>
        cases b with
        | true =>
          rw [gi_true_data, show (toks (Node.boolean true)).length = 1 from rfl,
            show (['t', 'r', 'u', 'e'] : List Char) ++ rest = 't' :: 'r' :: 'u' :: 'e' :: rest from rfl,
            collect_step' f (ntp_true rest) (by decide)]
          simp [toks]
        | false =>
          rw [gi_false_data, show (toks (Node.boolean false)).length = 1 from rfl,
            show (['f', 'a', 'l', 's', 'e'] : List Char) ++ rest
              = 'f' :: 'a' :: 'l' :: 's' :: 'e' :: rest from rfl,
            collect_step' f (ntp_false rest) (by decide)]
          simp [toks]
      | number sv =>
        have hv : validNumber sv = true := by simpa [wfText] using hwf
        rw [gi_number_data, show (toks (Node.number sv)).length = 1 from rfl,
          collect_step' f (ntp_number rest hv hr) (by simp)]
        simp [toks]
      | string sv =>
        have hv : validString sv = true := by simpa [wfText] using hwf
        rw [gi_string_data, show (toks (Node.string sv)).length = 1 from rfl,
          show ('"' :: (sv.data ++ '"' :: [])) ++ rest = '"' :: (sv.data ++ '"' :: rest) from by simp,
          collect_step' f (ntp_string rest hv) (by simp)]
        simp [toks]
      | object kvm =>
        cases kvm with
        | nil =>
          rw [gi_object_nil_data, show (toks (Node.object [])).length = 2 from rfl,
            show ('\x7b' :: '\n' :: '\n' :: (prefx.data ++ ['\x7d'])) ++ rest
              = '\x7b' :: ('\n' :: ('\n' :: prefx.data ++ '\x7d' :: rest)) from by simp,
            show 2 + f = 1 + (1 + f) from by omega,
            collect_step' (1 + f) (ntp_lc _) (by decide),
            collect_ws_cons (1 + f) '\n' ('\n' :: prefx.data) ('\x7d' :: rest) (by decide)
              (by simp [show is_whitespace '\n' = true from by decide, hws']),
            collect_step' f (ntp_rc _) (by decide), ← consToks_append]
          simp [toks, membersToks]
        | cons m ms =>
          obtain ⟨k, v⟩ := m
          have hwfm : validString k = true ∧ wfText v = true ∧ wfTextMembers ms = true := by
            simpa [wfText, wfTextMembers, Bool.and_eq_true, and_assoc] using hwf
          obtain ⟨hk, hv, hms⟩ := hwfm
          have hnp : wsString (inc_indent prefx isz) = true := ws_inc_indent isz hws
          have hnp' : (inc_indent prefx isz).data.all is_whitespace = true := hnp
          have hvsz : sizeOf v ≤ n := by simp at hsz; omega
          have hmssz : sizeOf ms ≤ n := by simp at hsz; omega
          have hlen : (toks (Node.object ((k, v) :: ms))).length + f
              = 1 + (1 + (1 + ((toks v).length + ((membersTailToks ms).length + 1 + f)))) := by
            simp [toks, membersToks]
            omega
          rw [gi_object_data, hlen]
          simp only [memberLineChars, List.append_assoc, List.cons_append, List.nil_append]
          rw [collect_step' _ (ntp_lc _) (by decide),
            collect_ws_cons _ '\n' (inc_indent prefx isz).data _ (by decide) hnp',
            collect_step' _ (ntp_string _ hk) (by simp),
            collect_step' _ (ntp_colon _) (by decide),
            collect_ws_one _ ' ' _ (by decide),
            ihV v hvsz (inc_indent prefx isz) _ _ hv hnp (hnd_mtc _ _ _ _),
            ihM ms hmssz (inc_indent prefx isz) prefx rest f hms hnp hws,
            ← consToks_append, ← consToks_append, ← consToks_append, ← consToks_append]
          congr 1
          simp [toks, membersToks]
      | array arr =>
        cases arr with
        | nil =>
          rw [gi_array_nil_data, show (toks (Node.array [])).length = 2 from rfl,
            show ('[' :: '\n' :: '\n' :: (prefx.data ++ [']'])) ++ rest
              = '[' :: ('\n' :: ('\n' :: prefx.data ++ ']' :: rest)) from by simp,
            show 2 + f = 1 + (1 + f) from by omega,
            collect_step' (1 + f) (ntp_ls _) (by decide),
            collect_ws_cons (1 + f) '\n' ('\n' :: prefx.data) (']' :: rest) (by decide)
              (by simp [show is_whitespace '\n' = true from by decide, hws']),
            collect_step' f (ntp_rs _) (by decide), ← consToks_append]
          simp [toks, elemsToks]
        | cons v vs =>
          have hwfm : wfText v = true ∧ wfTextList vs = true := by
            simpa [wfText, wfTextList, Bool.and_eq_true] using hwf
          obtain ⟨hv, hvs⟩ := hwfm
          have hnp : wsString (inc_indent prefx isz) = true := ws_inc_indent isz hws
          have hnp' : (inc_indent prefx isz).data.all is_whitespace = true := hnp
          have hvsz : sizeOf v ≤ n := by simp at hsz; omega
          have hvssz : sizeOf vs ≤ n := by simp at hsz; omega
          have hlen : (toks (Node.array (v :: vs))).length + f
              = 1 + ((toks v).length + ((elemsTailToks vs).length + 1 + f)) := by
            simp [toks, elemsToks]
            omega
          rw [gi_array_data, hlen]
          simp only [elemLineChars, List.append_assoc, List.cons_append, List.nil_append]
          rw [collect_step' _ (ntp_ls _) (by decide),
            collect_ws_cons _ '\n' (inc_indent prefx isz).data _ (by decide) hnp',
            ihV v hvsz (inc_indent prefx isz) _ _ hv hnp (hnd_etc _ _ _ _),
            ihE vs hvssz (inc_indent prefx isz) prefx rest f hvs hnp hws,
            ← consToks_append, ← consToks_append]
          congr 1
          simp [toks, elemsToks]
    · -- object member tail conjunct
      intro ms hsz np prefx rest f hwf hnp hpr
      have hnp' : np.data.all is_whitespace = true := hnp
      have hpr' : prefx.data.all is_whitespace = true := hpr
      cases ms with
      | nil =>
        rw [show (membersTailToks ([] : List (String × Node))).length + 1 + f = 1 + f from by
          simp [membersTailToks]]
        simp only [membersTailChars, List.nil_append]
        rw [collect_ws_cons (1 + f) '\n' prefx.data _ (by decide) hpr',
          collect_step' f (ntp_rc _) (by decide)]
        simp [membersTailToks]
      | cons m ms =>
        obtain ⟨k, v⟩ := m
        have hwfm : validString k = true ∧ wfText v = true ∧ wfTextMembers ms = true := by
          simpa [wfTextMembers, Bool.and_eq_true, and_assoc] using hwf
        obtain ⟨hk, hv, hms⟩ := hwfm
        have hvsz : sizeOf v ≤ n := by simp at hsz; omega
        have hmssz : sizeOf ms ≤ n := by simp at hsz; omega
        have hlen : (membersTailToks ((k, v) :: ms)).length + 1 + f
            = 1 + (1 + (1 + ((toks v).length + ((membersTailToks ms).length + 1 + f)))) := by
          simp [membersTailToks]
          omega
        rw [hlen]
        simp only [membersTailChars, memberLineChars, List.append_assoc, List.cons_append,
          List.nil_append]
        rw [collect_step' _ (ntp_comma _) (by decide),
          collect_ws_cons _ '\n' np.data _ (by decide) hnp',
          collect_step' _ (ntp_string _ hk) (by simp),
          collect_step' _ (ntp_colon _) (by decide),
          collect_ws_one _ ' ' _ (by decide),
          ihV v hvsz np _ _ hv hnp (hnd_mtc _ _ _ _),
          ihM ms hmssz np prefx rest f hms hnp hpr,
          ← consToks_append, ← consToks_append, ← consToks_append, ← consToks_append]
        congr 1
        simp [membersTailToks]
    · -- array element tail conjunct
      intro vs hsz np prefx rest f hwf hnp hpr
      have hnp' : np.data.all is_whitespace = true := hnp
      have hpr' : prefx.data.all is_whitespace = true := hpr
      cases vs with
      | nil =>
        rw [show (elemsTailToks ([] : List Node)).length + 1 + f = 1 + f from by
          simp [elemsTailToks]]
        simp only [elemsTailChars, List.nil_append]
        rw [collect_ws_cons (1 + f) '\n' prefx.data _ (by decide) hpr',
          collect_step' f (ntp_rs _) (by decide)]
        simp [elemsTailToks]
      | cons v vs =>
        have hwfm : wfText v = true ∧ wfTextList vs = true := by
          simpa [wfTextList, Bool.and_eq_true] using hwf
        obtain ⟨hv, hvs⟩ := hwfm
        have hvsz : sizeOf v ≤ n := by simp at hsz; omega
        have hvssz : sizeOf vs ≤ n := by simp at hsz; omega
        have hlen : (elemsTailToks (v :: vs)).length + 1 + f
            = 1 + ((toks v).length + ((elemsTailToks vs).length + 1 + f)) := by
          simp [elemsTailToks]
          omega
        rw [hlen]
        simp only [elemsTailChars, elemLineChars, List.append_assoc, List.cons_append,
          List.nil_append]
        rw [collect_step' _ (ntp_comma _) (by decide),
          collect_ws_cons _ '\n' np.data _ (by decide) hnp',
          ihV v hvsz np _ _ hv hnp (hnd_etc _ _ _ _),
          ihE vs hvssz np prefx rest f hvs hnp hpr,
          ← consToks_append, ← consToks_append]
        congr 1
        simp [elemsTailToks]

/-! ## Tokenizer progress: every non-Eof token consumes input -/

theorem skip_ws_len (s : List Char) : (skip_whitespaces s).length ≤ s.length := by
  induction s with
  | nil => simp [skip_whitespaces]
  | cons c cs ih =>
    rw [skip_whitespaces]
    by_cases h : is_whitespace c = true
    · simp only [h, if_true]
      calc (skip_whitespaces cs).length ≤ cs.length := ih
        _ ≤ (c :: cs).length := by simp
    · simp [h]

theorem consume_len {c : Char} {s s' : List Char} {x : Char}
    (h : Tokenizer.consume c s = (.ok x, s')) : s'.length < s.length := by
  cases s with
  | nil => simp [Tokenizer.consume] at h
  | cons top rest =>
    rw [Tokenizer.consume] at h
    by_cases htop : (top == c) = true
    · rw [if_pos htop] at h
      have hs : s' = rest := (congrArg Prod.snd h).symm
      subst hs
      simp
    · rw [if_neg htop] at h
      exact absurd (congrArg Prod.fst h) (by simp)

theorem consumeAll_len {cs : List Char} : ∀ {s s' : List Char} {u : Unit},
    consumeAll cs s = (.ok u, s') → s'.length + cs.length ≤ s.length := by
  induction cs with
  | nil =>
    intro s s' u h
    rw [consumeAll] at h
    obtain rfl : s = s' := congrArg Prod.snd h
    simp
  | cons c cs ih =>
    intro s s' u h
    rw [consumeAll] at h
    cases hc : Tokenizer.consume c s with
    | mk r s1 =>
      rw [hc] at h
      cases r with
      | error e => exact absurd (congrArg Prod.fst h) (by simp)
      | ok x =>
        have h1 : s1.length < s.length := consume_len hc
        have h2 := ih h
        simp only [List.length_cons]
        omega

theorem scan_len : ∀ (s : List Char) (acc : String) {r : Except String String} {s' : List Char},
    scan_string_loop s acc = (r, s') → s'.length ≤ s.length := by
  intro s
  induction s with
  | nil =>
    intro acc r s' h
    rw [scan_string_loop] at h
    obtain rfl : ([] : List Char) = s' := congrArg Prod.snd h
    simp
  | cons c cs ih =>
    intro acc r s' h
    rw [scan_string_loop] at h
    by_cases hbs : (c == '\x5C') = true
    · rw [if_pos hbs] at h
      have : c = '\x5C' := beq_iff_eq.mp hbs
      subst this
      simp only [show escape '\x5C' = some '\x5C' from rfl] at h
      have := ih _ h
      simp
      omega
    · rw [if_neg hbs] at h
      by_cases hq : (c == '"') = true
      · rw [if_pos hq] at h
        obtain rfl : cs = s' := congrArg Prod.snd h
        simp
      · rw [if_neg hq] at h
        by_cases hu : is_unescaped c = true
        · rw [if_pos hu] at h
          have := ih _ h
          simp
          omega
        · rw [if_neg hu] at h
          obtain rfl : c :: cs = s' := congrArg Prod.snd h
          simp

theorem read_digits_go_len : ∀ (s : List Char) (acc : String),
    (read_digits_go s acc).2.length + (read_digits_go s acc).1.data.length
      = s.length + acc.data.length := by
  intro s
  induction s with
  | nil => intro acc; simp [read_digits_go]
  | cons c cs ih =>
    intro acc
    rw [read_digits_go]
    by_cases h : c.isDigit = true
    · simp only [h, if_true]
      rw [ih (acc.push c)]
      simp [String.data_push]
      omega
    · simp [h]

theorem tnp_len {c : Char} {cs : List Char} {t : Token} {s' : List Char}
    (h : tokenize_number_p (c :: cs) = (.ok t, s')) : s'.length < (c :: cs).length := by
  simp only [tokenize_number_p] at h
  by_cases hm : (c == '-') = true
  · rw [if_pos hm] at h
    cases hp : read_digits_go cs "" with
    | mk d1 r1 =>
      have hrd := read_digits_go_len cs ""
      rw [hp] at hrd
      simp only [show ("".data : List Char) = [] from rfl, List.length_nil] at hrd
      simp only [hp] at h
      by_cases he : d1.data.isEmpty = true
      · rw [if_pos he] at h
        exact absurd (congrArg Prod.fst h) (by simp)
      · rw [if_neg he] at h
        have hs : s' = r1 := (congrArg Prod.snd h).symm
        subst hs
        simp only [List.length_cons]
        omega
  · rw [if_neg hm] at h
    cases hp : read_digits_go (c :: cs) "" with
    | mk d1 r1 =>
      have hrd := read_digits_go_len (c :: cs) ""
      rw [hp] at hrd
      simp only [show ("".data : List Char) = [] from rfl, List.length_nil] at hrd
      simp only [hp] at h
      by_cases he : d1.data.isEmpty = true
      · rw [if_pos he] at h
        exact absurd (congrArg Prod.fst h) (by simp)
      · rw [if_neg he] at h
        have hpos : 0 < d1.data.length := by
          cases hd : d1.data with
          | nil => rw [hd] at he; simp at he
          | cons a l => simp
        have hs : s' = r1 := (congrArg Prod.snd h).symm
        subst hs
        omega

theorem ts_len {s : List Char} {t : Token} {s' : List Char}
    (h : tokenize_string s = (.ok t, s')) : s'.length < s.length := by
  cases hc : Tokenizer.consume '"' s with
  | mk r s1 =>
    simp only [tokenize_string, hc] at h
    cases r with
    | error e => exact absurd (congrArg Prod.fst h) (by simp)
    | ok x =>
      cases hsc : scan_string_loop s1 "" with
      | mk r2 s2 =>
        simp only [hsc] at h
        cases r2 with
        | error e => exact absurd (congrArg Prod.fst h) (by simp)
        | ok ident =>
          have hs : s' = s2 := (congrArg Prod.snd h).symm
          subst hs
          have h1 := scan_len s1 "" hsc
          have h2 := consume_len hc
          omega

theorem tokenize_true_len {s : List Char} {t : Token} {s' : List Char}
    (h : tokenize_true s = (.ok t, s')) : s'.length < s.length := by
  cases hc : consumeAll ['t', 'r', 'u', 'e'] s with
  | mk r s1 =>
    simp only [tokenize_true, hc] at h
    cases r with
    | error e => exact absurd (congrArg Prod.fst h) (by simp)
    | ok u =>
      have hlen := consumeAll_len hc
      have hs : s' = s1 := (congrArg Prod.snd h).symm
      subst hs
      simp at hlen
      omega

theorem tokenize_false_len {s : List Char} {t : Token} {s' : List Char}
    (h : tokenize_false s = (.ok t, s')) : s'.length < s.length := by
  cases hc : consumeAll ['f', 'a', 'l', 's', 'e'] s with
  | mk r s1 =>
    simp only [tokenize_false, hc] at h
    cases r with
    | error e => exact absurd (congrArg Prod.fst h) (by simp)
    | ok u =>
      have hlen := consumeAll_len hc
      have hs : s' = s1 := (congrArg Prod.snd h).symm
      subst hs
      simp at hlen
      omega

theorem tokenize_null_len {s : List Char} {t : Token} {s' : List Char}
    (h : tokenize_null s = (.ok t, s')) : s'.length < s.length := by
  cases hc : consumeAll ['n', 'u', 'l', 'l'] s with
  | mk r s1 =>
    simp only [tokenize_null, hc] at h
    cases r with
    | error e => exact absurd (congrArg Prod.fst h) (by simp)
    | ok u =>
      have hlen := consumeAll_len hc
      have hs : s' = s1 := (congrArg Prod.snd h).symm
      subst hs
      simp at hlen
      omega

theorem ntp_progress {s s' : List Char} {t : Token}
    (h : next_token_p s = (.ok t, s')) (ht : t ≠ .eof) : s'.length < s.length := by
  have hlen := skip_ws_len s
  cases hs1 : skip_whitespaces s with
  | nil =>
    simp only [next_token_p, hs1] at h
    exact absurd (Except.ok.inj (congrArg Prod.fst h)).symm ht
  | cons c cs =>
    simp only [next_token_p, hs1] at h
    rw [hs1] at hlen
    simp only [List.length_cons] at hlen
    by_cases h1 : c.isDigit = true
    · rw [if_pos h1] at h
      have := tnp_len h
      simp only [List.length_cons] at this
      omega
    · rw [if_neg h1] at h
      by_cases h2 : (c == '-') = true
      · rw [if_pos h2] at h
        have := tnp_len h
        simp only [List.length_cons] at this
        omega
      · rw [if_neg h2] at h
        by_cases h3 : (c == '\x7b') = true
        · rw [if_pos h3] at h
          have hs : s' = cs := (congrArg Prod.snd h).symm
          subst hs; omega
        · rw [if_neg h3] at h
          by_cases h4 : (c == '\x7d') = true
          · rw [if_pos h4] at h
            have hs : s' = cs := (congrArg Prod.snd h).symm
            subst hs; omega
          · rw [if_neg h4] at h
            by_cases h5 : (c == '[') = true
            · rw [if_pos h5] at h
              have hs : s' = cs := (congrArg Prod.snd h).symm
              subst hs; omega
            · rw [if_neg h5] at h
              by_cases h6 : (c == ']') = true
              · rw [if_pos h6] at h
                have hs : s' = cs := (congrArg Prod.snd h).symm
                subst hs; omega
              · rw [if_neg h6] at h
                by_cases h7 : (c == ':') = true
                · rw [if_pos h7] at h
                  have hs : s' = cs := (congrArg Prod.snd h).symm
                  subst hs; omega
                · rw [if_neg h7] at h
                  by_cases h8 : (c == ',') = true
                  · rw [if_pos h8] at h
                    have hs : s' = cs := (congrArg Prod.snd h).symm
                    subst hs; omega
                  · rw [if_neg h8] at h
                    by_cases h9 : (c == '"') = true
                    · rw [if_pos h9] at h
                      have := ts_len h
                      simp only [List.length_cons] at this
                      omega
                    · rw [if_neg h9] at h
                      by_cases h10 : (c == 't') = true
                      · rw [if_pos h10] at h
                        have := tokenize_true_len h
                        simp only [List.length_cons] at this
                        omega
                      · rw [if_neg h10] at h
                        by_cases h11 : (c == 'f') = true
                        · rw [if_pos h11] at h
                          have := tokenize_false_len h
                          simp only [List.length_cons] at this
                          omega
                        · rw [if_neg h11] at h
                          by_cases h12 : (c == 'n') = true
                          · rw [if_pos h12] at h
                            have := tokenize_null_len h
                            simp only [List.length_cons] at this
                            omega
                          · rw [if_neg h12] at h
                            exact absurd (congrArg Prod.fst h) (by simp)

theorem collectGo_succ (f : Nat) (s : List Char) :
    collectTokensGo (f + 1) s =
      match next_token_p s with
      | (.error e, _) => .error e
      | (.ok t, s') =>
        if t = .eof then .ok []
        else
          match collectTokensGo f s' with
          | .ok ts => .ok (t :: ts)
          | .error e => .error e := rfl

theorem collect_mono : ∀ {f : Nat} {s : List Char} {ts : List Token},
    collectTokensGo f s = .ok ts → collectTokensGo (f + 1) s = .ok ts := by
  intro f
  induction f with
  | zero =>
    intro s ts h
    exact absurd h (by rw [collectTokensGo]; simp)
  | succ f ih =>
    intro s ts h
    rw [collectGo_succ] at h
    rw [collectGo_succ]
    cases hnt : next_token_p s with
    | mk r s' =>
      simp only [hnt] at h ⊢
      cases r with
      | error e =>
        exact h
      | ok t =>
        by_cases ht : t = .eof
        · subst ht
          simp only [if_pos rfl] at h ⊢
          exact h
        · simp only [if_neg ht] at h ⊢
          cases hc : collectTokensGo f s' with
          | error e =>
            rw [hc] at h
            exact absurd h (by simp)
          | ok ts' =>
            rw [hc] at h
            rw [ih hc]
            exact h

theorem collect_mono_le {f f' : Nat} {s : List Char} {ts : List Token} (hle : f ≤ f')
    (h : collectTokensGo f s = .ok ts) : collectTokensGo f' s = .ok ts := by
  induction hle with
  | refl => exact h
  | step _ ih => exact collect_mono ih

theorem collect_enough : ∀ {f : Nat} {s : List Char} {ts : List Token},
    collectTokensGo f s = .ok ts → collectTokensGo (s.length + 1) s = .ok ts := by
  intro f
  induction f with
  | zero =>
    intro s ts h
    exact absurd h (by rw [collectTokensGo]; simp)
  | succ f ih =>
    intro s ts h
    rw [collectGo_succ] at h
    rw [collectGo_succ]
    cases hnt : next_token_p s with
    | mk r s' =>
      simp only [hnt] at h ⊢
      cases r with
      | error e => exact h
      | ok t =>
        by_cases ht : t = .eof
        · subst ht
          simp only [if_pos rfl] at h ⊢
          exact h
        · simp only [if_neg ht] at h ⊢
          cases hc : collectTokensGo f s' with
          | error e =>
            rw [hc] at h
            exact absurd h (by simp)
          | ok ts' =>
            rw [hc] at h
            have hprog := ntp_progress hnt ht
            have hih := ih hc
            have hfin : collectTokensGo s.length s' = .ok ts' :=
              collect_mono_le (by omega) hih
            rw [hfin]
            exact h

/-! ## Parser reductions -/

theorem consume_tok (t : Token) (ts : List Token) : Parser.consume t (t :: ts) = .ok ts := by
  simp [Parser.consume]

theorem assume_pos (t : Token) (ts : List Token) : Parser.assume t (t :: ts) = (true, ts) := by
  simp [Parser.assume]

theorem assume_neg {hd t : Token} (hne : hd ≠ t) (ts : List Token) :
    Parser.assume t (hd :: ts) = (false, hd :: ts) := by
  simp [Parser.assume, hne]

theorem assume_rs_toks (d : Node) (X : List Token) :
    Parser.assume .rightSquareBrancket (toks d ++ X) = (false, toks d ++ X) := by
  cases d <;> simp [toks, Parser.assume]

theorem toks_len_pos (d : Node) : 1 ≤ (toks d).length := by
  cases d <;> simp [toks]

/-! ## IndexMap insertion folds -/

theorem insertIM_not_mem {kvm : List (String × Node)} {k : String} (v : Node)
    (h : k ∉ kvm.map Prod.fst) :
    insertIM kvm k v = kvm ++ [(k, v)] := by
  rw [insertIM, if_neg (by simpa using h)]

theorem foldl_ins_nodup : ∀ (ms kvm : List (String × Node)),
    (∀ kv ∈ ms, kv.1 ∉ kvm.map Prod.fst) →
    nodupKeys (ms.map Prod.fst) = true →
    List.foldl (fun m kv => insertIM m kv.1 kv.2) kvm ms = kvm ++ ms := by
  intro ms
  induction ms with
  | nil => intro kvm _ _; simp
  | cons m ms ih =>
    obtain ⟨k, v⟩ := m
    intro kvm hdis hnd
    simp only [List.map_cons, nodupKeys, Bool.and_eq_true, Bool.not_eq_true'] at hnd
    obtain ⟨hknotin, hnd⟩ := hnd
    have hknotin' : k ∉ ms.map Prod.fst := by simpa using hknotin
    have hk : k ∉ kvm.map Prod.fst := hdis (k, v) (by simp)
    simp only [List.foldl_cons]
    rw [show insertIM kvm (k, v).1 (k, v).2 = kvm ++ [(k, v)] from insertIM_not_mem v hk]
    rw [ih (kvm ++ [(k, v)]) ?_ hnd]
    · simp
    · intro kv hkv
      have h1 : kv.1 ∉ kvm.map Prod.fst := hdis kv (List.mem_cons_of_mem _ hkv)
      have h2 : kv.1 ≠ k := by
        intro heq
        exact hknotin' (heq ▸ List.mem_map_of_mem Prod.fst hkv)
      simp [h1, h2]

/-! ## Parsing the token sequence of a document -/

theorem parseObjectLoop_succ (f : Nat) (kvm : List (String × Node)) (ts : List Token) :
    parseObjectLoop (f + 1) kvm ts =
      match Parser.assume .rightCurlyBranckt ts with
      | (true, ts') => .ok (.object kvm, ts')
      | (false, _) =>
        match Parser.consume .comma ts with
        | .error e => .error e
        | .ok ts1 =>
          match parseMember f ts1 with
          | .error e => .error e
          | .ok (kv, ts2) => parseObjectLoop f (insertIM kvm kv.1 kv.2) ts2 := by
  rw [parseObjectLoop]

theorem parseArrayLoop_succ (f : Nat) (values : List Node) (ts : List Token) :
    parseArrayLoop (f + 1) values ts =
      match Parser.assume .rightSquareBrancket ts with
      | (true, ts') => .ok (.array values, ts')
      | (false, _) =>
        match Parser.consume .comma ts with
        | .error e => .error e
        | .ok ts1 =>
          match parseValue f ts1 with
          | .error e => .error e
          | .ok (v, ts2) => parseArrayLoop f (values ++ [v]) ts2 := by
  rw [parseArrayLoop]

theorem parseAux : ∀ n : Nat,
    (∀ d : Node, sizeOf d ≤ n → ∀ (rest : List Token) (f : Nat), wfKeys d = true →
      (toks d).length + 1 ≤ f → parseValue f (toks d ++ rest) = .ok (d, rest))
    ∧ (∀ ms : List (String × Node), sizeOf ms ≤ n →
        ∀ (kvm : List (String × Node)) (rest : List Token) (f : Nat),
      wfKeysMembers ms = true → (membersTailToks ms).length + 1 ≤ f →
      parseObjectLoop f kvm (membersTailToks ms ++ .rightCurlyBranckt :: rest)
        = .ok (.object (List.foldl (fun m kv => insertIM m kv.1 kv.2) kvm ms), rest))
    ∧ (∀ vs : List Node, sizeOf vs ≤ n → ∀ (acc : List Node) (rest : List Token) (f : Nat),
      wfKeysList vs = true → (elemsTailToks vs).length + 1 ≤ f →
      parseArrayLoop f acc (elemsTailToks vs ++ .rightSquareBrancket :: rest)
        = .ok (.array (acc ++ vs), rest)) := by
  intro n
  induction n with
  | zero =>
    refine ⟨fun d hd => absurd hd ?_, fun ms hms => absurd hms ?_, fun vs hvs => absurd hvs ?_⟩
    · have : 0 < sizeOf d := by cases d <;> simp
      omega
    · have : 0 < sizeOf ms := by cases ms <;> simp
      omega
    · have : 0 < sizeOf vs := by cases vs <;> simp
      omega
  | succ n ihn =>
    obtain ⟨ihV, ihM, ihE⟩ := ihn
    refine ⟨?_, ?_, ?_⟩
    · intro d hsz rest f hwf hf
      obtain ⟨f1, rfl⟩ : ∃ f1, f = f1 + 1 := ⟨f - 1, by have := toks_len_pos d; omega⟩
      cases d with
      | null => simp [toks, parseValue, parseNull]
      | boolean b => simp [toks, parseValue, parseBoolean]
      | number sv => simp [toks, parseValue, parseInt]
      | string sv => simp [toks, parseValue, parseString]
      | object kvm =>
        cases kvm with
        | nil =>
          obtain ⟨f2, rfl⟩ : ∃ f2, f1 = f2 + 1 := by
            refine ⟨f1 - 1, ?_⟩
            simp [toks, membersToks] at hf
            omega
          simp [toks, membersToks, parseValue, parseObject, consume_tok, assume_pos]
        | cons m ms =>
          obtain ⟨k, v⟩ := m
          have hwf' : nodupKeys (((k, v) :: ms).map Prod.fst) = true
              ∧ wfKeys v = true ∧ wfKeysMembers ms = true := by
            simpa [wfKeys, wfKeysMembers, Bool.and_eq_true, and_assoc] using hwf
          obtain ⟨hnd, hv, hms⟩ := hwf'
          have hlenf : (toks (Node.object ((k, v) :: ms))).length
              = 4 + (toks v).length + (membersTailToks ms).length := by
            simp [toks, membersToks]
            omega
          rw [hlenf] at hf
          obtain ⟨f2, rfl⟩ : ∃ f2, f1 = f2 + 1 := ⟨f1 - 1, by omega⟩
          obtain ⟨f3, rfl⟩ : ∃ f3, f2 = f3 + 1 := ⟨f2 - 1, by omega⟩
          have hvsz : sizeOf v ≤ n := by simp at hsz; omega
          have hmssz : sizeOf ms ≤ n := by simp at hsz; omega
          simp only [toks, membersToks, List.cons_append, List.append_assoc,
            List.nil_append]
          simp only [parseValue, parseObject, consume_tok,
            assume_neg (show Token.string k ≠ .rightCurlyBranckt by simp)]
          simp only [parseMember, parseString, consume_tok]
          simp only [ihV v hvsz (membersTailToks ms ++ Token.rightCurlyBranckt :: rest) f3 hv
              (by omega),
            show insertIM [] k v = [(k, v)] from by simp [insertIM],
            ihM ms hmssz [(k, v)] rest (f3 + 1) hms (by omega)]
          rw [foldl_ins_nodup ms [(k, v)] ?_ ?_]
          · simp
          · intro kv hkv
            have hknotin' : k ∉ ms.map Prod.fst := by
              simp only [List.map_cons, nodupKeys, Bool.and_eq_true, Bool.not_eq_true'] at hnd
              simpa using hnd.1
            have : kv.1 ≠ k := by
              intro heq
              exact hknotin' (heq ▸ List.mem_map_of_mem Prod.fst hkv)
            simp [this]
          · simp only [List.map_cons, nodupKeys, Bool.and_eq_true] at hnd
            exact hnd.2
      | array arr =>
        cases arr with
        | nil =>
          obtain ⟨f2, rfl⟩ : ∃ f2, f1 = f2 + 1 := by
            refine ⟨f1 - 1, ?_⟩
            simp [toks, elemsToks] at hf
            omega
          simp [toks, elemsToks, parseValue, parseArray, consume_tok, assume_pos]
        | cons v vs =>
          have hwf' : wfKeys v = true ∧ wfKeysList vs = true := by
            simpa [wfKeys, wfKeysList, Bool.and_eq_true] using hwf
          obtain ⟨hv, hvs⟩ := hwf'
          have hlenf : (toks (Node.array (v :: vs))).length
              = 2 + (toks v).length + (elemsTailToks vs).length := by
            simp [toks, elemsToks]
            omega
          rw [hlenf] at hf
          obtain ⟨f2, rfl⟩ : ∃ f2, f1 = f2 + 1 := ⟨f1 - 1, by omega⟩
          have hvsz : sizeOf v ≤ n := by simp at hsz; omega
          have hvssz : sizeOf vs ≤ n := by simp at hsz; omega
          simp only [toks, elemsToks, List.cons_append, List.append_assoc, List.nil_append]
          simp only [parseValue, parseArray, consume_tok,
            assume_rs_toks v (elemsTailToks vs ++ Token.rightSquareBrancket :: rest),
            ihV v hvsz (elemsTailToks vs ++ Token.rightSquareBrancket :: rest) f2 hv (by omega),
            ihE vs hvssz [v] rest f2 hvs (by omega)]
          simp
    · intro ms hsz kvm rest f hwf hf
      cases ms with
      | nil =>
        obtain ⟨f1, rfl⟩ : ∃ f1, f = f1 + 1 := ⟨f - 1, by omega⟩
        simp [membersTailToks, parseObjectLoop, assume_pos]
      | cons m ms =>
        obtain ⟨k, v⟩ := m
        have hwf' : wfKeys v = true ∧ wfKeysMembers ms = true := by
          simpa [wfKeysMembers, Bool.and_eq_true] using hwf
        obtain ⟨hv, hms⟩ := hwf'
        have hlenf : (membersTailToks ((k, v) :: ms)).length
            = 3 + (toks v).length + (membersTailToks ms).length := by
          simp [membersTailToks]
          omega
        rw [hlenf] at hf
        obtain ⟨f1, rfl⟩ : ∃ f1, f = f1 + 1 := ⟨f - 1, by omega⟩
        obtain ⟨f2, rfl⟩ : ∃ f2, f1 = f2 + 1 := ⟨f1 - 1, by omega⟩
        have hvsz : sizeOf v ≤ n := by simp at hsz; omega
        have hmssz : sizeOf ms ≤ n := by simp at hsz; omega
        simp only [membersTailToks, List.cons_append, List.append_assoc, List.nil_append]
        rw [parseObjectLoop_succ]
        simp only [assume_neg (show Token.comma ≠ .rightCurlyBranckt by simp), consume_tok]
        simp only [parseMember, parseString, consume_tok,
          ihV v hvsz (membersTailToks ms ++ Token.rightCurlyBranckt :: rest) f2 hv (by omega)]
        rw [ihM ms hmssz (insertIM kvm k v) rest (f2 + 1) hms (by omega)]
        simp
    · intro vs hsz acc rest f hwf hf
      cases vs with
      | nil =>
        obtain ⟨f1, rfl⟩ : ∃ f1, f = f1 + 1 := ⟨f - 1, by omega⟩
        simp [elemsTailToks, parseArrayLoop, assume_pos]
      | cons v vs =>
        have hwf' : wfKeys v = true ∧ wfKeysList vs = true := by
          simpa [wfKeysList, Bool.and_eq_true] using hwf
        obtain ⟨hv, hvs⟩ := hwf'
        have hlenf : (elemsTailToks (v :: vs)).length
            = 1 + (toks v).length + (elemsTailToks vs).length := by
          simp [elemsTailToks]
          omega
        rw [hlenf] at hf
        obtain ⟨f1, rfl⟩ : ∃ f1, f = f1 + 1 := ⟨f - 1, by omega⟩
        have hvsz : sizeOf v ≤ n := by simp at hsz; omega
        have hvssz : sizeOf vs ≤ n := by simp at hsz; omega
        simp only [elemsTailToks, List.cons_append, List.append_assoc, List.nil_append]
        rw [parseArrayLoop_succ]
        simp only [assume_neg (show Token.comma ≠ .rightSquareBrancket by simp), consume_tok,
          ihV v hvsz (elemsTailToks vs ++ Token.rightSquareBrancket :: rest) f1 hv (by omega)]
        rw [ihE vs hvssz (acc ++ [v]) rest f1 hvs (by omega)]
        simp

/-! ## Pipeline corollaries -/

theorem collectTokens_gen (isz : Nat) (d : Node) (hwf : wfText d = true) :
    collectTokens (Generator.generate d isz).data = .ok (toks d) := by
  have h := (tokGenAux isz (sizeOf d)).1 d le_rfl "" [] 1 hwf rfl rfl
  rw [List.append_nil] at h
  have h1 : collectTokensGo 1 ([] : List Char) = .ok [] := by
    rw [show (1 : Nat) = 0 + 1 from rfl, collectGo_succ]
    simp [ntp_eof]
  rw [h1] at h
  simp only [consToks, List.append_nil] at h
  exact collect_enough h

theorem collectTokens_gen_extra (isz : Nat) (d : Node) (extra : List Char) (ts' : List Token)
    (hwf : wfText d = true) (hx : collectTokens extra = .ok ts') :
    collectTokens ((Generator.generate d isz).data ++ ' ' :: extra) = .ok (toks d ++ ts') := by
  have h := (tokGenAux isz (sizeOf d)).1 d le_rfl "" (' ' :: extra) (extra.length + 1) hwf rfl rfl
  rw [collect_ws_one _ ' ' extra (by decide)] at h
  rw [show collectTokensGo (extra.length + 1) extra = .ok ts' from hx] at h
  simp only [consToks] at h
  exact collect_enough h

theorem parse_toks (d : Node) (extraTs : List Token) (hwf : wfKeys d = true) :
    Parser.parse (toks d ++ extraTs) = .ok d := by
  have h := (parseAux (sizeOf d)).1 d le_rfl extraTs ((toks d ++ extraTs).length + 1) hwf
    (by simp only [List.length_append]; omega)
  rw [Parser.parse, h]

theorem parse_toks_nil (d : Node) (hwf : wfKeys d = true) : Parser.parse (toks d) = .ok d := by
  have h := parse_toks d [] hwf
  rwa [List.append_nil] at h

theorem pretty_json_roundtrip (d : Node) (n : Nat) (ht : wfText d = true)
    (hk : wfKeys d = true) :
    pretty_json (Generator.generate d n) n = .ok (Generator.generate d n) := by
  simp only [pretty_json, collectTokens_gen n d ht, parse_toks_nil d hk]

/-! ## Duplicate-key characterization of IndexMap insertion -/

theorem lookup_append_im (l1 l2 : List (String × Node)) (a : String) :
    List.lookup a (l1 ++ l2) = (List.lookup a l1).orElse (fun _ => List.lookup a l2) := by
  induction l1 with
  | nil => simp
  | cons x l ih =>
    obtain ⟨k, v⟩ := x
    by_cases h : a = k
    · simp [List.lookup, h]
    · simp [List.lookup, h, ih, beq_false_of_ne h]

theorem lookup_map_replace (l : List (String × Node)) (k key : String) (v : Node)
    (hne : key ≠ k) :
    List.lookup key (l.map (fun kv => if kv.1 = k then (k, v) else kv))
      = List.lookup key l := by
  induction l with
  | nil => simp
  | cons x l ih =>
    obtain ⟨k1, v1⟩ := x
    by_cases h1 : k1 = k
    · subst h1
      simp only [List.map_cons]
      norm_num
      simp [List.lookup, beq_false_of_ne hne, ih]
    · simp only [List.map_cons, if_neg h1]
      by_cases h2 : key = k1
      · simp [List.lookup, h2]
      · simp [List.lookup, beq_false_of_ne h2, ih]

theorem lookup_map_replace_self (l : List (String × Node)) (k : String) (v : Node)
    (hmem : k ∈ l.map Prod.fst) :
    List.lookup k (l.map (fun kv => if kv.1 = k then (k, v) else kv)) = some v := by
  induction l with
  | nil => simp at hmem
  | cons x l ih =>
    obtain ⟨k1, v1⟩ := x
    by_cases h1 : k1 = k
    · subst h1
      simp only [List.map_cons]
      norm_num [List.lookup]
    · simp only [List.map_cons, if_neg h1]
      have hmem' : k ∈ l.map Prod.fst := by
        simp only [List.map_cons, List.mem_cons] at hmem
        rcases hmem with h | h
        · exact absurd h.symm h1
        · exact h
      simp [List.lookup, beq_false_of_ne (fun h => h1 h.symm), ih hmem']

theorem lookup_not_mem (l : List (String × Node)) (k : String)
    (h : k ∉ l.map Prod.fst) : List.lookup k l = none := by
  induction l with
  | nil => simp
  | cons x l ih =>
    obtain ⟨k1, v1⟩ := x
    simp only [List.map_cons, List.mem_cons] at h
    push_neg at h
    simp [List.lookup, beq_false_of_ne h.1, ih h.2]

theorem insertIM_lookup (kvm : List (String × Node)) (k key : String) (v : Node) :
    List.lookup key (insertIM kvm k v)
      = if key = k then some v else List.lookup key kvm := by
  by_cases hc : ((kvm.map Prod.fst).contains k) = true
  · rw [insertIM, if_pos hc]
    have hmem : k ∈ kvm.map Prod.fst := by simpa using hc
    by_cases hkey : key = k
    · subst hkey
      rw [lookup_map_replace_self kvm key v hmem, if_pos rfl]
    · rw [lookup_map_replace kvm k key v hkey, if_neg hkey]
  · have hcf : ((kvm.map Prod.fst).contains k) = false := by
      cases hval : (kvm.map Prod.fst).contains k
      · rfl
      · exact absurd hval hc
    have hnm : k ∉ kvm.map Prod.fst := by simpa using hcf
    rw [insertIM, if_neg (fun hcontra => by rw [hcf] at hcontra; exact Bool.noConfusion hcontra)]
    rw [lookup_append_im]
    by_cases hkey : key = k
    · subst hkey
      rw [lookup_not_mem kvm key hnm]
      simp [List.lookup]
    · rw [if_neg hkey]
      have hnone : List.lookup key [(k, v)] = none := by
        simp [List.lookup, beq_false_of_ne hkey]
      rw [hnone]
      cases List.lookup key kvm <;> simp [Option.orElse]

theorem lookup_foldl_ins : ∀ (ms kvm : List (String × Node)) (key : String),
    List.lookup key (List.foldl (fun m kv => insertIM m kv.1 kv.2) kvm ms)
      = (List.lookup key ms.reverse).orElse (fun _ => List.lookup key kvm) := by
  intro ms
  induction ms with
  | nil => intro kvm key; simp
  | cons m ms ih =>
    obtain ⟨k, v⟩ := m
    intro kvm key
    simp only [List.foldl_cons, List.reverse_cons]
    rw [ih, lookup_append_im]
    rw [insertIM_lookup kvm k key v]
    by_cases hkey : key = k
    · subst hkey
      cases List.lookup key ms.reverse <;> simp [Option.orElse, List.lookup]
    · have hnone : List.lookup key [(k, v)] = none := by
        simp [List.lookup, beq_false_of_ne hkey]
      rw [hnone, if_neg hkey]
      cases List.lookup key ms.reverse <;> simp [Option.orElse]

theorem map_fst_replace (l : List (String × Node)) (k : String) (v : Node) :
    (l.map (fun kv => if kv.1 = k then (k, v) else kv)).map Prod.fst = l.map Prod.fst := by
  induction l with
  | nil => simp
  | cons x l ih =>
    obtain ⟨k1, v1⟩ := x
    by_cases h1 : k1 = k
    · subst h1
      simp only [List.map_cons]
      norm_num [ih]
    · simp [if_neg h1, ih]

theorem insertIM_keys (kvm : List (String × Node)) (k : String) (v : Node) :
    (insertIM kvm k v).map Prod.fst
      = if (kvm.map Prod.fst).contains k then kvm.map Prod.fst
        else kvm.map Prod.fst ++ [k] := by
  by_cases hc : ((kvm.map Prod.fst).contains k) = true
  · rw [insertIM, if_pos hc, if_pos hc, map_fst_replace]
  · have hcf : ((kvm.map Prod.fst).contains k) = false := by
      cases hval : (kvm.map Prod.fst).contains k
      · rfl
      · exact absurd hval hc
    rw [insertIM, if_neg (fun hcontra => by rw [hcf] at hcontra; exact Bool.noConfusion hcontra),
      hcf]
    simp

theorem keys_foldl_ins : ∀ (ms kvm : List (String × Node)),
    (List.foldl (fun m kv => insertIM m kv.1 kv.2) kvm ms).map Prod.fst
      = (ms.map Prod.fst).foldl (fun acc k => if acc.contains k then acc else acc ++ [k])
          (kvm.map Prod.fst) := by
  intro ms
  induction ms with
  | nil => intro kvm; simp
  | cons m ms ih =>
    obtain ⟨k, v⟩ := m
    intro kvm
    simp only [List.foldl_cons, List.map_cons]
    rw [ih (insertIM kvm k v), insertIM_keys]

theorem nodupKeys_iff (ks : List String) : nodupKeys ks = true ↔ ks.Nodup := by
  induction ks with
  | nil => simp [nodupKeys]
  | cons k ks ih => simp [nodupKeys, Bool.and_eq_true, List.nodup_cons, ih, Bool.not_eq_true']

theorem nodup_dedup_fold : ∀ (ks acc : List String), acc.Nodup →
    (ks.foldl (fun acc k => if acc.contains k then acc else acc ++ [k]) acc).Nodup := by
  intro ks
  induction ks with
  | nil => intro acc h; simpa using h
  | cons k ks ih =>
    intro acc h
    simp only [List.foldl_cons]
    by_cases hc : (acc.contains k) = true
    · rw [if_pos hc]
      exact ih acc h
    · have hnm : k ∉ acc := by
        intro hmem
        exact hc (by simpa using hmem)
      rw [if_neg (fun hcontra => hc hcontra)]
      refine ih (acc ++ [k]) ?_
      simp [List.nodup_append, h, hnm]

theorem parse_object_members (ms : List (String × Node)) (hwf : wfKeysMembers ms = true) :
    Parser.parse (toks (Node.object ms))
      = .ok (.object (List.foldl (fun m kv => insertIM m kv.1 kv.2) [] ms)) := by
  cases ms with
  | nil => rfl
  | cons m ms =>
    obtain ⟨k, v⟩ := m
    have hwf' : wfKeys v = true ∧ wfKeysMembers ms = true := by
      simpa [wfKeysMembers, Bool.and_eq_true] using hwf
    obtain ⟨hv, hms⟩ := hwf'
    rw [Parser.parse]
    have hlenf : (toks (Node.object ((k, v) :: ms))).length
        = 4 + (toks v).length + (membersTailToks ms).length := by
      simp [toks, membersToks]
      omega
    rw [hlenf]
    rw [show 4 + (toks v).length + (membersTailToks ms).length + 1
        = (((toks v).length + (membersTailToks ms).length + 2) + 1 + 1) + 1 from by omega]
    simp only [toks, membersToks, List.cons_append, List.append_assoc, List.nil_append]
    simp only [parseValue, parseObject, consume_tok,
      assume_neg (show Token.string k ≠ .rightCurlyBranckt by simp)]
    simp only [parseMember, parseString, consume_tok]
    have hV := (parseAux (sizeOf v)).1 v le_rfl
      (membersTailToks ms ++ Token.rightCurlyBranckt :: [])
      ((toks v).length + (membersTailToks ms).length + 2) hv (by omega)
    have hM := (parseAux (sizeOf ms)).2.1 ms le_rfl [(k, v)] []
      ((toks v).length + (membersTailToks ms).length + 2 + 1) hms (by omega)
    simp only [hV, show insertIM [] k v = [(k, v)] from by simp [insertIM], hM]
    simp [insertIM]

/-! ## Progress for the snapshot tokenizer (`next_token`) -/

theorem tn_len {c : Char} {cs : List Char} {t : Token} {s' : List Char}
    (h : tokenize_number (c :: cs) = (.ok t, s')) : s'.length < (c :: cs).length := by
  simp only [tokenize_number] at h
  by_cases hm : (c == '-') = true
  · rw [if_pos hm] at h
    cases hp : read_digits_go cs "" with
    | mk d1 r1 =>
      have hrd := read_digits_go_len cs ""
      rw [hp] at hrd
      simp only [show ("".data : List Char) = [] from rfl, List.length_nil] at hrd
      simp only [hp] at h
      cases hpi : parse_i64 d1 with
      | none =>
        rw [hpi] at h
        exact absurd (congrArg Prod.fst h) (by simp)
      | some num =>
        rw [hpi] at h
        have hs : s' = r1 := (congrArg Prod.snd h).symm
        subst hs
        simp only [List.length_cons]
        omega
  · rw [if_neg hm] at h
    cases hp : read_digits_go (c :: cs) "" with
    | mk d1 r1 =>
      have hrd := read_digits_go_len (c :: cs) ""
      rw [hp] at hrd
      simp only [show ("".data : List Char) = [] from rfl, List.length_nil] at hrd
      simp only [hp] at h
      cases hpi : parse_i64 d1 with
      | none =>
        rw [hpi] at h
        exact absurd (congrArg Prod.fst h) (by simp)
      | some num =>
        rw [hpi] at h
        have hne : d1.data.isEmpty = false := by
          cases hval : d1.data.isEmpty
          · rfl
          · rw [parse_i64, if_pos hval] at hpi
            exact Option.noConfusion hpi
        have hpos : 0 < d1.data.length := by
          cases hd : d1.data with
          | nil => rw [hd] at hne; simp at hne
          | cons a l => simp
        have hs : s' = r1 := (congrArg Prod.snd h).symm
        subst hs
        omega

theorem nt_progress {s s' : List Char} {t : Token}
    (h : next_token s = (.ok t, s')) (ht : t ≠ .eof) : s'.length < s.length := by
  have hlen := skip_ws_len s
  cases hs1 : skip_whitespaces s with
  | nil =>
    simp only [next_token, hs1] at h
    exact absurd (TokOut.ok.inj (congrArg Prod.fst h)).symm ht
  | cons c cs =>
    simp only [next_token, hs1] at h
    rw [hs1] at hlen
    simp only [List.length_cons] at hlen
    by_cases h1 : c.isDigit = true
    · rw [if_pos h1] at h
      have := tn_len h
      simp only [List.length_cons] at this
      omega
    · rw [if_neg h1] at h
      by_cases h2 : (c == '-') = true
      · rw [if_pos h2] at h
        have := tn_len h
        simp only [List.length_cons] at this
        omega
      · rw [if_neg h2] at h
        by_cases h3 : (c == '\x7b') = true
        · rw [if_pos h3] at h
          have hs : s' = cs := (congrArg Prod.snd h).symm
          subst hs; omega
        · rw [if_neg h3] at h
          by_cases h4 : (c == '\x7d') = true
          · rw [if_pos h4] at h
            have hs : s' = cs := (congrArg Prod.snd h).symm
            subst hs; omega
          · rw [if_neg h4] at h
            by_cases h5 : (c == '[') = true
            · rw [if_pos h5] at h
              have hs : s' = cs := (congrArg Prod.snd h).symm
              subst hs; omega
            · rw [if_neg h5] at h
              by_cases h6 : (c == ']') = true
              · rw [if_pos h6] at h
                have hs : s' = cs := (congrArg Prod.snd h).symm
                subst hs; omega
              · rw [if_neg h6] at h
                by_cases h7 : (c == ':') = true
                · rw [if_pos h7] at h
                  have hs : s' = cs := (congrArg Prod.snd h).symm
                  subst hs; omega
                · rw [if_neg h7] at h
                  by_cases h8 : (c == ',') = true
                  · rw [if_pos h8] at h
                    have hs : s' = cs := (congrArg Prod.snd h).symm
                    subst hs; omega
                  · rw [if_neg h8] at h
                    by_cases h9 : (c == '"') = true
                    · rw [if_pos h9] at h
                      cases hts : tokenize_string (c :: cs) with
                      | mk r s2 =>
                        simp only [hts] at h
                        cases r with
                        | error e => exact absurd (congrArg Prod.fst h) (by simp)
                        | ok tt =>
                          have hs : s' = s2 := (congrArg Prod.snd h).symm
                          subst hs
                          have := ts_len hts
                          simp only [List.length_cons] at this
                          omega
                    · rw [if_neg h9] at h
                      by_cases h10 : (c == 't') = true
                      · rw [if_pos h10] at h
                        cases hts : tokenize_true (c :: cs) with
                        | mk r s2 =>
                          simp only [hts] at h
                          cases r with
                          | error e => exact absurd (congrArg Prod.fst h) (by simp)
                          | ok tt =>
                            have hs : s' = s2 := (congrArg Prod.snd h).symm
                            subst hs
                            have := tokenize_true_len hts
                            simp only [List.length_cons] at this
                            omega
                      · rw [if_neg h10] at h
                        by_cases h11 : (c == 'f') = true
                        · rw [if_pos h11] at h
                          cases hts : tokenize_false (c :: cs) with
                          | mk r s2 =>
                            simp only [hts] at h
                            cases r with
                            | error e => exact absurd (congrArg Prod.fst h) (by simp)
                            | ok tt =>
                              have hs : s' = s2 := (congrArg Prod.snd h).symm
                              subst hs
                              have := tokenize_false_len hts
                              simp only [List.length_cons] at this
                              omega
                        · rw [if_neg h11] at h
                          by_cases h12 : (c == 'n') = true
                          · rw [if_pos h12] at h
                            cases hts : tokenize_null (c :: cs) with
                            | mk r s2 =>
                              simp only [hts] at h
                              cases r with
                              | error e => exact absurd (congrArg Prod.fst h) (by simp)
                              | ok tt =>
                                have hs : s' = s2 := (congrArg Prod.snd h).symm
                                subst hs
                                have := tokenize_null_len hts
                                simp only [List.length_cons] at this
                                omega
                          · rw [if_neg h12] at h
                            exact absurd (congrArg Prod.fst h) (by simp)

/-! ## The iterator view of the tokenizer -/

theorem tokenizerNext_eof {s s' : List Char} (hnt : next_token s = (.ok .eof, s')) :
    tokenizerNext s = (none, s') := by
  simp [tokenizerNext, hnt]

theorem tokenizerNext_ok {s s' : List Char} {t : Token}
    (hnt : next_token s = (.ok t, s')) (ht : t ≠ .eof) :
    tokenizerNext s = (some (.ok t), s') := by
  cases t <;> simp [tokenizerNext, hnt] <;> exact absurd rfl ht

theorem tokenizerNext_err {s s' : List Char} {e : String}
    (hnt : next_token s = (.err e, s')) :
    tokenizerNext s = (some (.err e), s') := by
  simp [tokenizerNext, hnt]

theorem tokenizerNext_aborted {s s' : List Char} {e : String}
    (hnt : next_token s = (.aborted e, s')) :
    tokenizerNext s = (some (.aborted e), s') := by
  simp [tokenizerNext, hnt]

theorem c5_aux : ∀ (N : Nat) (s : List Char), s.length ≤ N →
    ∃ n, n ≤ s.length ∧ (iterNth s n = none
      ∨ (∃ e, iterNth s n = some (.err e)) ∨ (∃ e, iterNth s n = some (.aborted e))) := by
  intro N
  induction N with
  | zero =>
    intro s hs
    have hnil : s = [] := List.eq_nil_of_length_eq_zero (by omega)
    subst hnil
    exact ⟨0, by omega, Or.inl rfl⟩
  | succ N ih =>
    intro s hs
    cases hnt : next_token s with
    | mk r s' =>
      cases r with
      | ok t =>
        by_cases ht : t = .eof
        · subst ht
          refine ⟨0, by omega, Or.inl ?_⟩
          rw [show iterNth s 0 = (tokenizerNext s).1 from rfl, tokenizerNext_eof hnt]
        · have hprog := nt_progress hnt ht
          obtain ⟨n, hn, hcase⟩ := ih s' (by omega)
          refine ⟨n + 1, by omega, ?_⟩
          have hstep : iterNth s (n + 1) = iterNth s' n := by
            rw [show iterNth s (n + 1) = iterNth (tokenizerNext s).2 n from rfl,
              tokenizerNext_ok hnt ht]
          rw [hstep]
          exact hcase
      | err e =>
        refine ⟨0, by omega, Or.inr (Or.inl ⟨e, ?_⟩)⟩
        rw [show iterNth s 0 = (tokenizerNext s).1 from rfl, tokenizerNext_err hnt]
      | aborted e =>
        refine ⟨0, by omega, Or.inr (Or.inr ⟨e, ?_⟩)⟩
        rw [show iterNth s 0 = (tokenizerNext s).1 from rfl, tokenizerNext_aborted hnt]

theorem iter_fixed_at : ∀ n : Nat,
    iterNth ['@'] n
      = some (.err ("The tokenizer found an unexpected character " ++ squot ++ "@" ++ squot
          ++ ".")) := by
  intro n
  induction n with
  | zero => rfl
  | succ n ih =>
    rw [show iterNth ['@'] (n + 1) = iterNth (tokenizerNext ['@']).2 n from rfl,
      show (tokenizerNext ['@']).2 = ['@'] from rfl]
    exact ih

/-! ## Remaining helpers for the claims -/

theorem rd_nodigit {rest : List Char} (h : headNotDigit rest = true) :
    read_digits_go rest "" = ("", rest) := by
  cases rest with
  | nil => rfl
  | cons c cs =>
    simp only [headNotDigit, Bool.not_eq_true'] at h
    simp [read_digits_go, h]

theorem scan_eof {body : List Char} :
    ∀ (acc : String), body.all (fun c => is_unescaped c || c == '\x5C') = true →
    scan_string_loop body acc
      = (.error "The tokenizer reached EOF before finding \" which represents the end of a string",
         []) := by
  induction body with
  | nil => intro acc _; rfl
  | cons c cs ih =>
    intro acc h
    simp only [List.all_cons, Bool.and_eq_true] at h
    obtain ⟨hc, hcs⟩ := h
    by_cases hbs : c = '\x5C'
    · subst hbs
      simp [scan_string_loop, escape, ih _ hcs]
    · have hun : is_unescaped c = true := by
        rcases (Bool.or_eq_true _ _).mp hc with h1 | h2
        · exact h1
        · exact absurd (beq_iff_eq.mp h2) hbs
      have hbs' : (c == '\x5C') = false := by simp [hbs]
      have hq : (c == '"') = false := by
        have : c ≠ '"' := by rintro rfl; exact absurd hun (by decide)
        simp [this]
      simp [scan_string_loop, hbs', hq, hun, ih _ hcs]

theorem string_branch_no_abort :
    ∀ (s : List Char) (e : String) (s2 : List Char),
      next_token ('"' :: s) ≠ (TokOut.aborted e, s2) := by
  intro s e s2 h
  have hskip : skip_whitespaces ('"' :: s) = '"' :: s := skip_ws_not _ (by decide)
  simp only [next_token, hskip] at h
  rw [show ('"' : Char).isDigit = false from by decide] at h
  simp only [Bool.false_eq_true, if_false] at h
  rw [if_neg (by decide), if_neg (by decide), if_neg (by decide), if_neg (by decide),
    if_neg (by decide), if_neg (by decide), if_neg (by decide),
    if_pos (show (('"' : Char) == '"') = true from by decide)] at h
  cases hts : tokenize_string ('"' :: s) with
  | mk r s3 =>
    simp only [hts] at h
    cases r with
    | ok t => exact TokOut.noConfusion (congrArg Prod.fst h)
    | error e2 => exact TokOut.noConfusion (congrArg Prod.fst h)

/-! ## The claims -/

/-- Claim C1 (code bug witnessed): on the numeric literal `007` the
tokenizer of `tokenizer.rs` does not store the source text: it parses the
digits into the machine integer `Token::Int(7)` and no `Number`-text token
exists in its output, while the generator (whose `Number` arm the parser's
`Node::Number(String)` feeds) does emit a stored text unchanged.  The
original text (leading zeros, or the sign of `-0`) is lost at the
tokenizing stage. -/
theorem c1_number_text_lost :
    next_token ("007".data) = (.ok (.int 7), [])
    ∧ (∀ s : String, next_token ("007".data) ≠ (.ok (.number s), []))
    ∧ next_token ("-0".data) = (.ok (.int 0), [])
    ∧ Generator.generate (.number "007") 4 = "007" := by
  refine ⟨rfl, ?_, rfl, rfl⟩
  intro s h
  rw [show next_token ("007".data) = (.ok (.int 7), []) from rfl] at h
  exact Token.noConfusion (TokOut.ok.inj (congrArg Prod.fst h))

/-- Claim C2, counterexample: a document containing a control character in a
string (exactly what escape decoding would produce) does not survive the
pipeline: the generator emits the control character raw, and re-tokenizing
the pretty-printed text fails with a lex error instead of reproducing it. -/
theorem c2_roundtrip_cex :
    pretty_json (Generator.generate (Node.string (String.mk ['\x08'])) 4) 4
      ≠ .ok (Generator.generate (Node.string (String.mk ['\x08'])) 4) := by
  decide

/-- Claim C2 as amended: for every document whose strings (keys and values)
consist of unescaped-range characters or backslashes, whose numbers match
`-?[0-9]+`, and whose object key lists are duplicate-free, pretty-printing
at width `n` and running the full pipeline (tokenize, parse, generate at
width `n`) on the result reproduces it exactly. -/
theorem c2_roundtrip (d : Node) (n : Nat) (ht : wfText d = true) (hk : wfKeys d = true) :
    pretty_json (Generator.generate d n) n = .ok (Generator.generate d n) :=
  pretty_json_roundtrip d n ht hk

/-- Witness for the amended C2 at a concrete document and width 2. -/
theorem c2_roundtrip_witness :
    wfText (Node.object [("a", Node.number "-0"),
        ("b", Node.array [Node.string "x\\y", Node.null]),
        ("c", Node.boolean false)]) = true
    ∧ wfKeys (Node.object [("a", Node.number "-0"),
        ("b", Node.array [Node.string "x\\y", Node.null]),
        ("c", Node.boolean false)]) = true
    ∧ pretty_json (Generator.generate (Node.object [("a", Node.number "-0"),
        ("b", Node.array [Node.string "x\\y", Node.null]),
        ("c", Node.boolean false)]) 2) 2
      = .ok (Generator.generate (Node.object [("a", Node.number "-0"),
        ("b", Node.array [Node.string "x\\y", Node.null]),
        ("c", Node.boolean false)]) 2) :=
  ⟨rfl, rfl, c2_roundtrip _ 2 rfl rfl⟩

/-- Claim C3, counterexample: the generator renders an empty object as the
four characters `{`, newline, newline, `}` (and an empty array as
`[`, newline, newline, `]`), not as the two characters `{}` / `[]`:
`generate_object_inner` of an empty map is empty, but `generate_object`
still wraps it in the `{\n` … `\n}` frame. -/
theorem c3_empty_cex :
    Generator.generate (Node.object []) 4 = "\x7b\n\n\x7d"
    ∧ Generator.generate (Node.object []) 4 ≠ "\x7b\x7d"
    ∧ Generator.generate (Node.array []) 4 = "[\n\n]"
    ∧ Generator.generate (Node.array []) 4 ≠ "[]" := by
  refine ⟨rfl, by decide, rfl, by decide⟩

/-- Claim C3 as amended: for every indent width, generating an empty Object
produces exactly `{`, newline, newline, `}`, and an empty Array produces
exactly `[`, newline, newline, `]` (an empty interior line, not a collapsed
bracket pair). -/
theorem c3_empty (n : Nat) :
    Generator.generate (Node.object []) n = "\x7b\n\n\x7d"
    ∧ Generator.generate (Node.array []) n = "[\n\n]" := by
  constructor
  · apply String.ext
    rw [show Generator.generate (Node.object []) n = generate_impl n (Node.object []) ""
        from rfl, gi_object_nil_data]
    rfl
  · apply String.ext
    rw [show Generator.generate (Node.array []) n = generate_impl n (Node.array []) ""
        from rfl, gi_array_nil_data]
    rfl

/-- Claim C4 (code bug witnessed): when `-` is not followed by an ASCII
digit, `read_digits` collects no digits and `digits.parse().expect(...)`
panics with "digits must represent number." — tokenization aborts instead
of returning a `LexError` value. -/
theorem c4_minus_panics (rest : List Char) (h : headNotDigit rest = true) :
    next_token ('-' :: rest) = (.aborted "digits must represent number.", rest) := by
  have hskip : skip_whitespaces ('-' :: rest) = '-' :: rest := skip_ws_not _ (by decide)
  simp only [next_token, hskip]
  rw [show ('-' : Char).isDigit = false from by decide]
  simp only [Bool.false_eq_true, if_false,
    if_pos (show (('-' : Char) == '-') = true from by decide)]
  simp only [tokenize_number, if_pos (show (('-' : Char) == '-') = true from by decide),
    rd_nodigit h]
  rfl

/-- Witness for C4 at the one-character input `-`. -/
theorem c4_minus_panics_witness :
    headNotDigit [] = true
    ∧ next_token ['-'] = (.aborted "digits must represent number.", []) :=
  ⟨rfl, c4_minus_panics [] rfl⟩

/-- Claim C5, counterexample: on the input `@` the tokenizer's error arm
does not consume the offending character, so every call of the iterator
returns the same `Err` item again — the sequence of items never ends. -/
theorem c5_iter_cex : ¬ iterFinite ['@'] := by
  rintro ⟨n, h⟩
  rw [iter_fixed_at n] at h
  exact Option.noConfusion h

/-- Claim C5 as amended: within `length + 1` calls the iterator has either
finished (`None`) or produced an `Err` item or hit a panic; in particular
only finitely many `Ok` tokens are ever produced, and on inputs that
tokenize without error the sequence is finite.  After an unconsumed-character
error, however, the same error repeats forever (see the counterexample). -/
theorem c5_iter_bounded (s : List Char) :
    ∃ n, n ≤ s.length ∧ (iterNth s n = none
      ∨ (∃ e, iterNth s n = some (.err e)) ∨ (∃ e, iterNth s n = some (.aborted e))) :=
  c5_aux s.length s le_rfl

/-- Claim C6: parsing an object member list (duplicates allowed) succeeds
and builds the `IndexMap` insertion fold of the members; in the result each
key appears exactly once (keys are `Nodup`), the key list is the
first-occurrence deduplication of the source key list (each key sits at the
position of its first occurrence, distinct keys in source order), and each
key is bound to the value of its last occurrence (lookup equals lookup in
the reversed member list). -/
theorem c6_duplicate_keys (ms : List (String × Node)) (hwf : wfKeysMembers ms = true) :
    Parser.parse (toks (Node.object ms))
      = .ok (.object (List.foldl (fun m kv => insertIM m kv.1 kv.2) [] ms))
    ∧ (List.foldl (fun m kv => insertIM m kv.1 kv.2) [] ms).map Prod.fst
        = keysDedupFirst (ms.map Prod.fst)
    ∧ ((List.foldl (fun m kv => insertIM m kv.1 kv.2) [] ms).map Prod.fst).Nodup
    ∧ ∀ key, List.lookup key (List.foldl (fun m kv => insertIM m kv.1 kv.2) [] ms)
        = List.lookup key ms.reverse := by
  refine ⟨parse_object_members ms hwf, ?_, ?_, ?_⟩
  · rw [keys_foldl_ins]
    rfl
  · rw [keys_foldl_ins]
    simpa using nodup_dedup_fold (ms.map Prod.fst) [] (by simp)
  · intro key
    rw [lookup_foldl_ins]
    cases List.lookup key ms.reverse <;> simp [Option.orElse, List.lookup]

/-- Witness for C6 on a member list where the key `a` occurs twice. -/
theorem c6_duplicate_keys_witness :
    wfKeysMembers [("a", Node.null), ("b", Node.boolean true), ("a", Node.number "1")] = true
    ∧ Parser.parse (toks (Node.object
        [("a", Node.null), ("b", Node.boolean true), ("a", Node.number "1")]))
      = .ok (.object (List.foldl (fun m kv => insertIM m kv.1 kv.2) []
          [("a", Node.null), ("b", Node.boolean true), ("a", Node.number "1")])) :=
  ⟨rfl, (c6_duplicate_keys
    [("a", Node.null), ("b", Node.boolean true), ("a", Node.number "1")] rfl).1⟩

/-- Claim C7: the token sequence of the input `{"a":}` parses to a
`ParseError` whose message names the pretty-printed token actually found at
the value position (`RightCurlyBranckt`), which differs from the generic
no-token message. -/
theorem c7_error_locality :
    collectTokens ("\x7b\"a\":\x7d".data)
      = .ok [.leftCurlyBranckt, .string "a", .colon, .rightCurlyBranckt]
    ∧ Parser.parse [.leftCurlyBranckt, .string "a", .colon, .rightCurlyBranckt]
      = .error ("Parse found an unexpected token " ++ tokenDebug .rightCurlyBranckt
          ++ " while parsing value.")
    ∧ tokenDebug .rightCurlyBranckt = "RightCurlyBranckt"
    ∧ ("Parse found an unexpected token " ++ tokenDebug .rightCurlyBranckt
          ++ " while parsing value.")
        ≠ "Parse found an unexpected token while parsing value." := by
  refine ⟨rfl, rfl, rfl, by decide⟩

/-- Claim C8: a comma followed immediately by the closing bracket fails
parsing, in the object loop (the member after the comma starts by demanding
a string key) and in the array loop (the value after the comma rejects the
closing bracket); two full parses of trailing-comma token sequences fail
accordingly. -/
theorem c8_trailing_comma :
    (∀ (f : Nat) (kvm : List (String × Node)) (ts : List Token),
      parseObjectLoop (f + 2) kvm (.comma :: .rightCurlyBranckt :: ts)
        = .error "Parse found an unexpected token while parsing string.")
    ∧ (∀ (f : Nat) (acc : List Node) (ts : List Token),
      parseArrayLoop (f + 2) acc (.comma :: .rightSquareBrancket :: ts)
        = .error ("Parse found an unexpected token " ++ tokenDebug .rightSquareBrancket
            ++ " while parsing value."))
    ∧ Parser.parse [.leftCurlyBranckt, .string "a", .colon, .null, .comma, .rightCurlyBranckt]
        = .error "Parse found an unexpected token while parsing string."
    ∧ Parser.parse [.leftSquareBrancket, .boolean true, .comma, .rightSquareBrancket]
        = .error ("Parse found an unexpected token " ++ tokenDebug .rightSquareBrancket
            ++ " while parsing value.") := by
  refine ⟨?_, ?_, rfl, rfl⟩
  · intro f kvm ts
    rw [show f + 2 = (f + 1) + 1 from rfl, parseObjectLoop_succ]
    simp only [assume_neg (show Token.comma ≠ .rightCurlyBranckt by simp), consume_tok]
    simp [parseMember, parseString]
  · intro f acc ts
    rw [show f + 2 = (f + 1) + 1 from rfl, parseArrayLoop_succ]
    simp only [assume_neg (show Token.comma ≠ .rightSquareBrancket by simp), consume_tok]
    simp [parseValue]

/-- Claim C9, counterexample: two in-scope inputs where the claim as stated
fails.  On `"a` followed by the control character 0x07 (no closing quote
anywhere) the tokenizer stops at the rejected character with the
unexpected-character-while-tokenizing-string `LexError`, not an error
reporting end of input.  On `"a\"` — where the only closing quote is
escaped, so no unescaped closing quote is ever found — tokenization
*succeeds*: `pop_escape` consumes the backslash alone and maps it to a
literal backslash, and the following quote then terminates the string,
yielding `Ok(String("a\"))`. -/
theorem c9_unterminated_cex :
    next_token ['"', 'a', '\x07']
      = (.err "The tokenizer found a unexpected character while tokenizing string.", ['\x07'])
    ∧ "The tokenizer found a unexpected character while tokenizing string."
        ≠ "The tokenizer reached EOF before finding \" which represents the end of a string"
    ∧ next_token ['"', 'a', '\x5C', '"'] = (.ok (.string "a\x5C"), []) :=
  ⟨rfl, by decide, rfl⟩

/-- Claim C9 as amended: when the characters after the opening quote are
all ones the scan loop consumes — the unescaped range or backslashes (in
particular no quote, so the input ends before any closing quote) —
tokenization returns the end-of-input-during-string `LexError` with the
input consumed and no `String` token; and the string path never panics on
any input.  Outside that family the original claim fails: a character the
loop rejects gives the unexpected-character `LexError` instead, and a
backslash-escaped quote is consumed as the string's end so tokenization
succeeds (see the counterexample). -/
theorem c9_unterminated_amended (body : List Char)
    (h : body.all (fun c => is_unescaped c || c == '\x5C') = true) :
    (next_token ('"' :: body)
      = (.err "The tokenizer reached EOF before finding \" which represents the end of a string",
         []))
    ∧ ∀ (s : List Char) (e : String) (s2 : List Char),
        next_token ('"' :: s) ≠ (TokOut.aborted e, s2) := by
  refine ⟨?_, string_branch_no_abort⟩
  have hskip : skip_whitespaces ('"' :: body) = '"' :: body := skip_ws_not _ (by decide)
  simp only [next_token, hskip]
  rw [show ('"' : Char).isDigit = false from by decide]
  simp only [Bool.false_eq_true, if_false]
  rw [if_neg (by decide), if_neg (by decide), if_neg (by decide), if_neg (by decide),
    if_neg (by decide), if_neg (by decide), if_neg (by decide),
    if_pos (show (('"' : Char) == '"') = true from by decide)]
  simp only [tokenize_string, Tokenizer.consume,
    if_pos (show (('"' : Char) == '"') = true from by decide), scan_eof "" h]

/-- Witness for the amended C9 at the input `"ab\` (a body with a
backslash and no closing quote). -/
theorem c9_unterminated_amended_witness :
    (['a', 'b', '\x5C'].all (fun c => is_unescaped c || c == '\x5C') = true)
    ∧ ((next_token ('"' :: ['a', 'b', '\x5C'])
        = (.err "The tokenizer reached EOF before finding \" which represents the end of a string",
           []))
      ∧ ∀ (s : List Char) (e : String) (s2 : List Char),
          next_token ('"' :: s) ≠ (TokOut.aborted e, s2)) :=
  ⟨rfl, c9_unterminated_amended ['a', 'b', '\x5C'] rfl⟩

/-- Claim C10: appending further tokenizable text after one complete JSON
value does not make the pipeline fail: the parser stops after the first
complete value without requiring the token sequence to be exhausted, and
`pretty_json` returns the rendering of that first value, ignoring the
trailing tokens. -/
theorem c10_trailing_input (d : Node) (n : Nat) (extra : List Char) (ts' : List Token)
    (ht : wfText d = true) (hk : wfKeys d = true) (hx : collectTokens extra = .ok ts') :
    pretty_json (Generator.generate d n ++ " " ++ String.mk extra) n
      = .ok (Generator.generate d n) := by
  have hdata : (Generator.generate d n ++ " " ++ String.mk extra).data
      = (Generator.generate d n).data ++ ' ' :: extra := by
    rw [String.data_append, String.data_append]
    rw [show (" " : String).data = [' '] from rfl, show (String.mk extra).data = extra from rfl]
    simp
  rw [pretty_json, hdata]
  simp only [show collectTokens ((Generator.generate d n).data ++ ' ' :: extra)
      = .ok (toks d ++ ts') from collectTokens_gen_extra n d extra ts' ht hx,
    parse_toks d ts' hk]

/-- Witness for C10: the input `1 2` pretty-prints to `1`, silently
dropping the trailing `2`. -/
theorem c10_trailing_input_witness :
    wfText (Node.number "1") = true
    ∧ wfKeys (Node.number "1") = true
    ∧ collectTokens ['2'] = .ok [.number "2"]
    ∧ pretty_json (Generator.generate (Node.number "1") 4 ++ " " ++ String.mk ['2']) 4
      = .ok (Generator.generate (Node.number "1") 4) :=
  ⟨rfl, rfl, rfl, c10_trailing_input (Node.number "1") 4 ['2'] [.number "2"] rfl rfl rfl⟩
